import Mathlib

/-!
# Block-level initialised-variable analysis (`taintVars.cpp`)

A shallow embedding of the worklist loop of `main` and of the helper functions
`getSimpleNodeLabel`, `getInstructionsFromBB` and `findTaintedVars`, followed by
theorems about them.

* Pointers to instructions are natural numbers (addresses); the null pointer is `none`.
* `std::set<Instruction*>` is a `Finset`, whose equality is equality of members,
  as `operator!=` on two `std::set`s is.
* `std::map<std::string, std::set<Instruction*>>` is a key-sorted association list;
  `operator[]` inserts an empty set under a key that is absent.
* A `BasicBlock*` is the position of the block in the function's block list.
* `main` creates the rows of the map under `getSimpleNodeLabel` (line 38); the loop reads
  and writes under `getName()` (lines 62, 63, 82). `row` and `out` are these two sets of a
  block; they are the same set for a block with a name.
* `main` calls `findInitializedVars`, which the source does not define; it is taken to
  be `findTaintedVars`, the one transfer function of the source.
* The `while` loop may run forever, so it is run with a bound on the number of
  iterations (`whileLoop`) or iterated a given number of times (`runLoop`).
-/

namespace TaintVars

/-! ## Data model -/

/-- An LLVM `Value`, as far as `dyn_cast<Instruction>` tells values apart: an
instruction (such as an `alloca`) or anything else (a global, an argument, a constant). -/
inductive Value where
  | instruction (addr : Nat)
  | nonInstruction (addr : Nat)
  deriving DecidableEq, Repr

/-- The type `Instruction*`; `none` is `nullptr`. -/
abbrev InstPtr := Option Nat

/-- The cast `dyn_cast<Instruction>(v)`: the instruction itself, or null. -/
def dyn_cast_Instruction : Value → InstPtr
  | Value.instruction addr => some addr
  | Value.nonInstruction _ => none

/-- An instruction of a block: a `StoreInst` with operand 0 (the stored value) and
operand 1 (the pointer written through), or an instruction of another kind. -/
inductive Instr where
  | store (operand0 operand1 : Value)
  | other
  deriving DecidableEq, Repr

/-- The type `std::set<Instruction*>`. -/
abbrev VarSet := Finset InstPtr

/-- A basic block: its name (`getName()`, empty for an unnamed block), the text
`printAsOperand` writes for it, its instructions in order, and the successors of its
terminator in order, each given by its position in the function. -/
structure BasicBlock where
  name : String
  asOperand : String
  insts : List Instr
  succs : List Nat
  deriving DecidableEq

instance : Inhabited BasicBlock := ⟨⟨"", "", [], []⟩⟩

/-- A function `F`: its basic blocks in order; the first one is the entry block. -/
structure Func where
  blocks : List BasicBlock
  deriving DecidableEq

/-- The block a `BasicBlock*` points to. Positions outside the function do not occur
in a function whose successors are all blocks of the function. -/
def Func.block (F : Func) (BB : Nat) : BasicBlock := F.blocks.getD BB default

/-- The entry block `&F->getEntryBlock()`. -/
def Func.entryBB (_F : Func) : Nat := 0

/-! ## Helper functions of the source -/

/-- The function `getSimpleNodeLabel`: the name when it is not empty, else what
`printAsOperand` writes. -/
def getSimpleNodeLabel (Node : BasicBlock) : String :=
  if Node.name ≠ "" then Node.name else Node.asOperand

/-- The function `getInstructionsFromBB`: the casts of operand 1 of the stores of `BB`. -/
def getInstructionsFromBB (BB : BasicBlock) : VarSet :=
  BB.insts.foldl
    (fun returnSet I =>
      match I with
      | Instr.store _ v => insert (dyn_cast_Instruction v) returnSet
      | Instr.other => returnSet)
    ∅

/-- The function `findTaintedVars` (called `findInitializedVars` in `main`): the
incoming set with the cast of operand 1 of every store of `BB` inserted. -/
def findTaintedVars (BB : BasicBlock) (incoming : VarSet) : VarSet :=
  BB.insts.foldl
    (fun updatedTaintedVars I =>
      match I with
      | Instr.store _ v => insert (dyn_cast_Instruction v) updatedTaintedVars
      | Instr.other => updatedTaintedVars)
    incoming

/-- Modelled from the spec: `union_sets` is called in `main` and defined nowhere in the
source; section 4.4 gives the join of two sets as their union. -/
def union_sets (a b : VarSet) : VarSet := a ∪ b

/-! ## The analysis map -/

/-- The type `std::map<std::string, std::set<Instruction*>>`, rows in key order. -/
abbrev AnalysisMap := List (String × VarSet)

/-- The order of `std::string` keys: lexicographic on the characters. -/
def keyLess (a b : String) : Bool := decide (a.toList < b.toList)

/-- The set stored under a key, the empty set when the key is absent: the value that
`analysisMap[k]` yields. -/
def lookup : AnalysisMap → String → VarSet
  | [], _ => ∅
  | (k', v) :: rest, k => if k = k' then v else lookup rest k

/-- The map after `analysisMap[k] = v`. -/
def assign : AnalysisMap → String → VarSet → AnalysisMap
  | [], k, v => [(k, v)]
  | (k', v') :: rest, k, v =>
    if k = k' then (k', v) :: rest
    else if keyLess k k' then (k, v) :: (k', v') :: rest
    else (k', v') :: assign rest k v

/-- The keys of the map, in order. -/
def keys (m : AnalysisMap) : List String := m.map Prod.fst

/-- The map after `analysisMap[k]` has been evaluated: a key that is absent is inserted
with an empty set, a key that is present leaves the map as it is. -/
def subscript (m : AnalysisMap) (k : String) : AnalysisMap :=
  if k ∈ keys m then m else assign m k ∅

/-! ## The worklist loop of `main` -/

/-- The state of the loop: `analysisMap` and `traversalStack` (top first). -/
structure State where
  analysisMap : AnalysisMap
  traversalStack : List (Nat × VarSet)
  deriving DecidableEq

/-- The `for` loop over the successors (lines 71-88): each successor whose stored set
differs from `unionVars` is pushed with `updated`. -/
def pushSuccessors (F : Func) (updated unionVars : VarSet) : List Nat → State → State
  | [], st => st
  | Succ :: more, st =>
    let m := subscript st.analysisMap (F.block Succ).name
    let succVars := lookup m (F.block Succ).name
    let stack :=
      if succVars ≠ unionVars then (Succ, updated) :: st.traversalStack
      else st.traversalStack
    pushSuccessors F updated unionVars more ⟨m, stack⟩

/-- One iteration of the `while` loop (lines 49-88) on a non-empty stack; a state with
an empty stack is left as it is. -/
def loopBody (F : Func) (st : State) : State :=
  match st.traversalStack with
  | [] => st
  | (BB, incoming) :: rest =>
    let updated := findTaintedVars (F.block BB) incoming
    let m1 := subscript st.analysisMap (F.block BB).name
    let unionVars := union_sets (lookup m1 (F.block BB).name) updated
    let m2 := assign m1 (F.block BB).name unionVars
    pushSuccessors F updated unionVars (F.block BB).succs ⟨m2, rest⟩

/-- The state after `n` iterations of the loop body. -/
def runLoop (F : Func) (n : Nat) (st : State) : State := (loopBody F)^[n] st

/-- The `while (!traversalStack.empty())` loop with a bound on the number of
iterations: the state on exit, or `none` when the bound is reached first. -/
def whileLoop (F : Func) : Nat → State → Option State
  | 0, st => if st.traversalStack.isEmpty then some st else none
  | fuel + 1, st =>
    if st.traversalStack.isEmpty then some st else whileLoop F fuel (loopBody F st)

/-- The map `main` builds before the loop (lines 35-39): an empty set under the label
of every block. -/
def initialMap (F : Func) : AnalysisMap :=
  F.blocks.foldl (fun m BB => assign m (getSimpleNodeLabel BB) ∅) []

/-- The state on entry to the loop (lines 42-46): the entry block paired with the
empty set is the only item on the stack. A function without blocks has no entry block
(`getEntryBlock()` is undefined on it) and is outside what this definition models. -/
def initialState (F : Func) : State :=
  ⟨initialMap F, [(F.entryBB, ∅)]⟩

/-- The row of a block: the set stored under the key `main` creates for the block before
the loop (line 38), its label `getSimpleNodeLabel`. -/
def row (F : Func) (m : AnalysisMap) (b : Nat) : VarSet :=
  lookup m (getSimpleNodeLabel (F.block b))

/-- The set the loop reads and writes for a block (lines 62, 63, 82): the one stored under
the block's name `getName()`. For a block with a name it is the block's row. -/
def out (F : Func) (m : AnalysisMap) (b : Nat) : VarSet := lookup m (F.block b).name

/-! ## The control-flow graph -/

/-- There is an edge `b → s`: `s` is a successor of the terminator of `b`. -/
def Edge (F : Func) (b s : Nat) : Prop := s ∈ (F.block b).succs

instance (F : Func) (b s : Nat) : Decidable (Edge F b s) := by
  unfold Edge
  infer_instance

/-- There is a path `b → ... → c` (possibly of length 0). -/
def Reach (F : Func) (b c : Nat) : Prop := Relation.ReflTransGen (Edge F) b c


/-! ## Notions used to state the properties -/

/-- The items the successor loop pushes, in the order of the successors. -/
def pushedItems (F : Func) (updated unionVars : VarSet) (m : AnalysisMap)
    (succs : List Nat) : List (Nat × VarSet) :=
  (succs.filter (fun s => decide (lookup m (F.block s).name ≠ unionVars))).map
    (fun s => (s, updated))

/-- The labels of the blocks are those of an LLVM function: no two blocks have the same
label and no label is empty (`printAsOperand` writes at least a `%`). -/
def LabelsWF (F : Func) : Prop :=
  (F.blocks.map getSimpleNodeLabel).Nodup ∧ ∀ BB ∈ F.blocks, getSimpleNodeLabel BB ≠ ""

instance (F : Func) : Decidable (LabelsWF F) := by
  unfold LabelsWF
  infer_instance

/-- Every member of `X` is the cast of a store target in a block that lies on a path
from the entry block to `b`. -/
def SoundAt (F : Func) (b : Nat) (X : VarSet) : Prop :=
  ∀ v ∈ X, ∃ c, Reach F F.entryBB c ∧ Reach F c b ∧ v ∈ getInstructionsFromBB (F.block c)

/-- The invariant behind soundness: every item on the stack is a block reachable from
the entry block paired with a sound set, and the row of every block is sound. -/
def InvSound (F : Func) (st : State) : Prop :=
  (∀ item ∈ st.traversalStack, Reach F F.entryBB item.1 ∧ SoundAt F item.1 item.2) ∧
  ∀ b, b < F.blocks.length → SoundAt F b (row F st.analysisMap b)


/-- Every successor of every block is a block of the function. -/
def SuccsValid (F : Func) : Prop :=
  ∀ BB ∈ F.blocks, ∀ s ∈ BB.succs, s < F.blocks.length

instance (F : Func) : Decidable (SuccsValid F) := by
  unfold SuccsValid
  infer_instance

/-- No two blocks have the same name (`getName()`). -/
def NamesDistinct (F : Func) : Prop := (F.blocks.map BasicBlock.name).Nodup

instance (F : Func) : Decidable (NamesDistinct F) := by
  unfold NamesDistinct
  infer_instance

/-- Every block has a name. -/
def AllNamed (F : Func) : Prop := ∀ BB ∈ F.blocks, BB.name ≠ ""

instance (F : Func) : Decidable (AllNamed F) := by
  unfold AllNamed
  infer_instance

/-- All casts of store targets of the function. -/
def allVars (F : Func) : VarSet :=
  F.blocks.foldr (fun BB acc => getInstructionsFromBB BB ∪ acc) ∅

/-- A bound on the number of successors of a block. -/
def maxSuccs (F : Func) : Nat := (F.blocks.map (fun BB => BB.succs.length)).sum

/-- The invariant of the loop on a function with distinct block names:
the stack holds blocks of the function; the sets on the stack grow towards the top;
what a block's set holds has reached each successor's set or waits on the stack for it;
all sets hold store targets of the function only; a non-empty set of a block holds the
block's own store targets; the entry block has been processed or waits on the stack. -/
structure Inv (F : Func) (st : State) : Prop where
  valid : ∀ item ∈ st.traversalStack, item.1 < F.blocks.length
  chain : st.traversalStack.Pairwise (fun x y => y.2 ⊆ x.2)
  edges : ∀ b, b < F.blocks.length → ∀ s ∈ (F.block b).succs, ∀ v ∈ out F st.analysisMap b,
    v ∈ out F st.analysisMap s ∨ ∃ T, (s, T) ∈ st.traversalStack ∧ v ∈ T
  mapBound : ∀ k, lookup st.analysisMap k ⊆ allVars F
  stackBound : ∀ item ∈ st.traversalStack, item.2 ⊆ allVars F
  own : ∀ b, b < F.blocks.length → (out F st.analysisMap b).Nonempty →
    getInstructionsFromBB (F.block b) ⊆ out F st.analysisMap b
  entry : getInstructionsFromBB (F.block F.entryBB) ⊆ out F st.analysisMap F.entryBB ∨
    ∃ T, (F.entryBB, T) ∈ st.traversalStack

/-- The first component of the termination measure: the room left in the sets of the
blocks. -/
def room (F : Func) (m : AnalysisMap) : Nat :=
  ∑ b in Finset.range F.blocks.length, ((allVars F).card - (out F m b).card)

/-- The weight of a stack item: zero when processing it would enlarge its block's set,
else a bound on the number of iterations it can cause before a set is enlarged. -/
def weight (F : Func) (m : AnalysisMap) (item : Nat × VarSet) : Nat :=
  if item.2 ∪ getInstructionsFromBB (F.block item.1) ⊆ out F m item.1
  then (maxSuccs F + 1) ^ ((allVars F).card - (out F m item.1).card)
  else 0

/-- The second component of the termination measure: the weights of the stack items. -/
def stackWeight (F : Func) (st : State) : Nat :=
  (st.traversalStack.map (weight F st.analysisMap)).sum


/-! ## The loop with a queue -/

/-- The successor loop of `main` with `push` onto the stack replaced by a push at the
back of a queue. -/
def enqueueSuccessors (F : Func) (updated unionVars : VarSet) : List Nat → State → State
  | [], st => st
  | Succ :: more, st =>
    let m := subscript st.analysisMap (F.block Succ).name
    let succVars := lookup m (F.block Succ).name
    let queue :=
      if succVars ≠ unionVars then st.traversalStack ++ [(Succ, updated)]
      else st.traversalStack
    enqueueSuccessors F updated unionVars more ⟨m, queue⟩

/-- The loop body of `main` with a FIFO queue as the worklist (section 8 of the
specification, order-independence): the front item is popped, successors are pushed at
the back; everything else is as in `loopBody`. -/
def loopBodyQueue (F : Func) (st : State) : State :=
  match st.traversalStack with
  | [] => st
  | (BB, incoming) :: rest =>
    let updated := findTaintedVars (F.block BB) incoming
    let m1 := subscript st.analysisMap (F.block BB).name
    let unionVars := union_sets (lookup m1 (F.block BB).name) updated
    let m2 := assign m1 (F.block BB).name unionVars
    enqueueSuccessors F updated unionVars (F.block BB).succs ⟨m2, rest⟩

/-- The queue-driven loop with a bound on the number of iterations. -/
def whileLoopQueue (F : Func) : Nat → State → Option State
  | 0, st => if st.traversalStack.isEmpty then some st else none
  | fuel + 1, st =>
    if st.traversalStack.isEmpty then some st else whileLoopQueue F fuel (loopBodyQueue F st)

/-! ## Shapes of control-flow graphs -/

/-- A diamond `entry → {B1, B2} → B3`: four blocks, the entry block (0) branches to
blocks 1 and 2 in either order, both branch to block 3, which has no successor. -/
def IsDiamond (F : Func) : Prop :=
  F.blocks.length = 4 ∧
  ((F.block 0).succs = [1, 2] ∨ (F.block 0).succs = [2, 1]) ∧
  (F.block 1).succs = [3] ∧ (F.block 2).succs = [3] ∧ (F.block 3).succs = []

instance (F : Func) : Decidable (IsDiamond F) := by
  unfold IsDiamond
  infer_instance

/-! ## Concrete functions -/

/-- A store of a constant through the `alloca` at address `n`. -/
def storeTo (n : Nat) : Instr := Instr.store (Value.nonInstruction 0) (Value.instruction n)

/-- Scenario A: `entry → B1 → B2`; `entry` stores to `x` (1), `B1` to `y` (2). -/
def scenarioA : Func :=
  ⟨[⟨"entry", "%entry", [storeTo 1, Instr.other], [1]⟩,
    ⟨"B1", "%B1", [storeTo 2, Instr.other], [2]⟩,
    ⟨"B2", "%B2", [Instr.other], []⟩]⟩

/-- An entry block without a store that branches to `B1`, which stores to `x` (1). -/
def silentEntry : Func :=
  ⟨[⟨"entry", "%entry", [Instr.other], [1]⟩,
    ⟨"B1", "%B1", [storeTo 1, Instr.other], []⟩]⟩

/-- A `while` loop whose body and exit block are unnamed: `entry` stores to `x` (1) and
branches to `loop`; `loop` branches to the body `%2` and to the exit `%3`; the body
branches back to `loop`; the exit stores to `y` (2) and returns. -/
def whileUnnamed : Func :=
  ⟨[⟨"entry", "%entry", [storeTo 1, Instr.other], [1]⟩,
    ⟨"loop", "%loop", [Instr.other], [2, 3]⟩,
    ⟨"", "%2", [Instr.other], [1]⟩,
    ⟨"", "%3", [storeTo 2, Instr.other], []⟩]⟩


/-- An entry block that stores to `x` (1) and branches to the unnamed block `%1`, which
returns, and to `head`; `head` branches to the unnamed block `%2`, which stores to
`y` (2) and branches back to `head`. -/
def forkUnnamed : Func :=
  ⟨[⟨"entry", "%entry", [storeTo 1, Instr.other], [1, 3]⟩,
    ⟨"", "%1", [Instr.other], []⟩,
    ⟨"", "%2", [storeTo 2, Instr.other], [3]⟩,
    ⟨"head", "%head", [Instr.other], [2]⟩]⟩

/-- An entry block that stores to `x` (1) and branches to the unnamed block `%2`, which
stores to `y` (2) and returns, and to the unnamed block `%1`; `%1` branches to `latch`,
which branches back to `%1`. -/
def latchUnnamed : Func :=
  ⟨[⟨"entry", "%entry", [storeTo 1, Instr.other], [2, 1]⟩,
    ⟨"", "%1", [Instr.other], [3]⟩,
    ⟨"", "%2", [storeTo 2, Instr.other], []⟩,
    ⟨"latch", "%latch", [Instr.other], [1]⟩]⟩

/-- An entry block that stores to `x` (1) and returns, and an unnamed block `%1` that no
block branches to; it stores to `y` (2). -/
def deadBlock : Func :=
  ⟨[⟨"entry", "%entry", [storeTo 1, Instr.other], []⟩,
    ⟨"", "%1", [storeTo 2, Instr.other], []⟩]⟩

/-- Scenario B as the claim gives it: `entry → {B1, B2} → B3`; `B1` stores to `a` (1),
`B2` stores to `b` (2), `entry` and `B3` store to nothing. -/
def diamondSpec : Func :=
  ⟨[⟨"entry", "%entry", [Instr.other], [1, 2]⟩,
    ⟨"B1", "%B1", [storeTo 1, Instr.other], [3]⟩,
    ⟨"B2", "%B2", [storeTo 2, Instr.other], [3]⟩,
    ⟨"B3", "%B3", [Instr.other], []⟩]⟩

/-- Scenario B with an entry block that stores to `e` (5). -/
def diamondStored : Func :=
  ⟨[⟨"entry", "%entry", [storeTo 5, Instr.other], [1, 2]⟩,
    ⟨"B1", "%B1", [storeTo 1, Instr.other], [3]⟩,
    ⟨"B2", "%B2", [storeTo 2, Instr.other], [3]⟩,
    ⟨"B3", "%B3", [Instr.other], []⟩]⟩

/-- Scenario A with unnamed blocks: `%0 → %1 → %2`; `%0` stores to `x` (1), `%1` to
`y` (2). -/
def unnamedChain : Func :=
  ⟨[⟨"", "%0", [storeTo 1, Instr.other], [1]⟩,
    ⟨"", "%1", [storeTo 2, Instr.other], [2]⟩,
    ⟨"", "%2", [Instr.other], []⟩]⟩

/-- Scenario C with an unnamed block `%0` that stores to `z` (3) and branches to itself
and to `exit`. -/
def unnamedSelfLoop : Func :=
  ⟨[⟨"", "%0", [storeTo 3, Instr.other], [0, 1]⟩,
    ⟨"exit", "%exit", [Instr.other], []⟩]⟩


/-- Scenario C: `B` stores to `z` (3) and branches to itself and to `exit`. -/
def scenarioC : Func :=
  ⟨[⟨"B", "%B", [storeTo 3, Instr.other], [0, 1]⟩,
    ⟨"exit", "%exit", [Instr.other], []⟩]⟩

/-- A store of a constant through a global variable, which is not an instruction. -/
def storeToGlobal (n : Nat) : Instr :=
  Instr.store (Value.nonInstruction 0) (Value.nonInstruction n)

/-- An entry block that stores to `x` (1) and branches to `B1` and `B2`; `B2` branches to
`B1`; `B1` returns. -/
def crossEdge : Func :=
  ⟨[⟨"entry", "%entry", [storeTo 1, Instr.other], [1, 2]⟩,
    ⟨"B1", "%B1", [Instr.other], []⟩,
    ⟨"B2", "%B2", [Instr.other], [1]⟩]⟩

/-- A diamond whose entry block stores to `e` (5) and whose block `B2` stores to `b` (2);
`B1` and `B3` store to nothing. -/
def lateJoin : Func :=
  ⟨[⟨"entry", "%entry", [storeTo 5, Instr.other], [1, 2]⟩,
    ⟨"B1", "%B1", [Instr.other], [3]⟩,
    ⟨"B2", "%B2", [storeTo 2, Instr.other], [3]⟩,
    ⟨"B3", "%B3", [Instr.other], []⟩]⟩

/-- An entry block that stores to `x` (1) and branches to `A` and `B`; `B` branches to
`A`; `A` branches to `C`, which stores to `y` (2) and returns. -/
def crossThen : Func :=
  ⟨[⟨"entry", "%entry", [storeTo 1, Instr.other], [1, 2]⟩,
    ⟨"A", "%A", [Instr.other], [3]⟩,
    ⟨"B", "%B", [Instr.other], [1]⟩,
    ⟨"C", "%C", [storeTo 2, Instr.other], []⟩]⟩

/-- A block with two stores, through the global variables 7 and 8, and no other store. -/
def twoGlobals : BasicBlock :=
  ⟨"entry", "%entry", [storeToGlobal 7, storeToGlobal 8, Instr.other], []⟩

/-- A single block `entry` that stores through a global variable and returns. -/
def globalStore : Func :=
  ⟨[⟨"entry", "%entry", [storeToGlobal 7, Instr.other], []⟩]⟩

/-! ## The whole of `main` -/

/-- The function `printAnalysisMap`: the rows written to `errs()`, for each row of the map
in key order the label and the members of the set. The map is passed by value. -/
def printAnalysisMap (analysisMap : AnalysisMap) : List (String × VarSet) :=
  analysisMap.map (fun r => (r.1, r.2))

/-- A module `M`: its functions by name. -/
structure Module where
  functions : List (String × Func)

/-- The call `M->getFunction(name)`: the function of that name, or null. -/
def Module.getFunction (M : Module) (name : String) : Option Func :=
  (M.functions.find? (fun f => decide (f.1 = name))).map Prod.snd

/-- The ways a run of `main` ends. -/
inductive Outcome where
  /-- The error message is written and `EXIT_FAILURE` returned (lines 31-32). -/
  | exitFailure (message : String)
  /-- The null pointer `F` is dereferenced by `*F` (line 36): undefined behaviour. -/
  | nullDereference
  /-- The loop is still running when the bound on the iterations is reached. -/
  | stillRunning (printed : List (String × VarSet))
  /-- The value 0 is returned (line 93); `printed` is what was written to `errs()` and
  `analysisMap` the map on exit. -/
  | exitSuccess (printed : List (String × VarSet)) (analysisMap : AnalysisMap)

/-- The function `main`, given what `ParseIRFile` returned (`none` for null) and a bound
on the number of iterations of the loop. The error message is given without the quoted
file name `argv[1]` that line 31 appends. -/
def main (M : Option Module) (fuel : Nat) : Outcome :=
  match M with
  | none => Outcome.exitFailure "error: failed to load LLVM IR file"
  | some M =>
    match M.getFunction "main" with
    | none => Outcome.nullDereference
    | some F =>
      let printed := printAnalysisMap (initialMap F)
      match whileLoop F fuel (initialState F) with
      | none => Outcome.stillRunning printed
      | some st => Outcome.exitSuccess printed st.analysisMap

/-- A module whose function `main` is Scenario A. -/
def moduleA : Module := ⟨[("main", scenarioA)]⟩

/-- A module with one function, `helper`, and no function `main`. -/
def moduleWithoutMain : Module := ⟨[("helper", scenarioA)]⟩

/-! ## Counting iterations -/

/-- The iteration that starts in this state enlarges the set of the block it processes. -/
def enlarges (F : Func) (st : State) : Bool :=
  match st.traversalStack with
  | [] => false
  | (BB, incoming) :: _ =>
    decide (¬ findTaintedVars (F.block BB) incoming ⊆ lookup st.analysisMap (F.block BB).name)

/-- The number of iterations, among the first `n` from a state, that enlarge a set. -/
def enlargingIterations (F : Func) : Nat → State → Nat
  | 0, _ => 0
  | n + 1, st => (if enlarges F st then 1 else 0) + enlargingIterations F n (loopBody F st)

/-! ## Basic facts about the helper functions and the map -/

theorem foldl_store_union (insts : List Instr) (S : VarSet) :
    insts.foldl
      (fun acc I =>
        match I with
        | Instr.store _ v => insert (dyn_cast_Instruction v) acc
        | Instr.other => acc) S
    = S ∪ insts.foldl
      (fun acc I =>
        match I with
        | Instr.store _ v => insert (dyn_cast_Instruction v) acc
        | Instr.other => acc) ∅ := by
  induction insts generalizing S with
  | nil => simp
  | cons I rest ih =>
    simp only [List.foldl_cons]
    rw [ih]
    conv_rhs => rw [ih]
    cases I with
    | store a v =>
      ext z
      simp only [Finset.mem_union, Finset.mem_insert, Finset.not_mem_empty, or_false]
      tauto
    | other => simp

theorem findTaintedVars_eq (BB : BasicBlock) (S : VarSet) :
    findTaintedVars BB S = S ∪ getInstructionsFromBB BB := by
  unfold findTaintedVars getInstructionsFromBB
  exact foldl_store_union BB.insts S

theorem lookup_assign (m : AnalysisMap) (k : String) (v : VarSet) (k' : String) :
    lookup (assign m k v) k' = if k' = k then v else lookup m k' := by
  induction m with
  | nil => simp only [assign, lookup]
  | cons p rest ih =>
    obtain ⟨k0, v0⟩ := p
    simp only [assign]
    split_ifs with h1 h2 h3 h4 h5 <;> simp_all [lookup]

theorem lookup_of_not_mem_keys (m : AnalysisMap) (k : String) (h : k ∉ keys m) :
    lookup m k = ∅ := by
  induction m with
  | nil => rfl
  | cons p rest ih =>
    obtain ⟨k0, v0⟩ := p
    simp only [keys, List.map_cons, List.mem_cons, not_or] at h
    simp only [lookup, h.1, if_false]
    exact ih h.2

theorem lookup_subscript (m : AnalysisMap) (k k' : String) :
    lookup (subscript m k) k' = lookup m k' := by
  unfold subscript
  split_ifs with h
  · rfl
  · rw [lookup_assign]
    split_ifs with h2
    · subst h2
      exact (lookup_of_not_mem_keys m k' h).symm
    · rfl

theorem lookup_pushSuccessors (F : Func) (U un : VarSet) (succs : List Nat) (st : State)
    (k : String) :
    lookup (pushSuccessors F U un succs st).analysisMap k = lookup st.analysisMap k := by
  induction succs generalizing st with
  | nil => rfl
  | cons s more ih =>
    simp only [pushSuccessors]
    rw [ih]
    exact lookup_subscript _ _ _

theorem stack_pushSuccessors (F : Func) (U un : VarSet) (succs : List Nat) (st : State) :
    (pushSuccessors F U un succs st).traversalStack
      = (pushedItems F U un st.analysisMap succs).reverse ++ st.traversalStack := by
  induction succs generalizing st with
  | nil => simp [pushSuccessors, pushedItems]
  | cons s more ih =>
    simp only [pushSuccessors]
    rw [ih]
    have hm : pushedItems F U un (subscript st.analysisMap (F.block s).name) more
        = pushedItems F U un st.analysisMap more := by
      unfold pushedItems
      congr 1
      apply List.filter_congr
      intro x _
      rw [lookup_subscript]
    simp only [hm, lookup_subscript]
    unfold pushedItems
    by_cases h : lookup st.analysisMap (F.block s).name = un
    · simp [h, List.filter_cons]
    · simp [h, List.filter_cons]


/-! ## One iteration, in terms of `lookup` -/

theorem loopBody_nil (F : Func) (st : State) (h : st.traversalStack = []) :
    loopBody F st = st := by
  unfold loopBody
  rw [h]

theorem lookup_loopBody (F : Func) (st : State) (b : Nat) (S : VarSet)
    (rest : List (Nat × VarSet)) (h : st.traversalStack = (b, S) :: rest) (k : String) :
    lookup (loopBody F st).analysisMap k
      = if k = (F.block b).name
        then lookup st.analysisMap k ∪ (S ∪ getInstructionsFromBB (F.block b))
        else lookup st.analysisMap k := by
  unfold loopBody
  rw [h]
  simp only [lookup_pushSuccessors, lookup_assign, lookup_subscript, union_sets,
    findTaintedVars_eq]
  split_ifs with hk
  · rw [hk]
  · rfl

theorem stack_loopBody (F : Func) (st : State) (b : Nat) (S : VarSet)
    (rest : List (Nat × VarSet)) (h : st.traversalStack = (b, S) :: rest) :
    (loopBody F st).traversalStack
      = (pushedItems F (S ∪ getInstructionsFromBB (F.block b))
          (lookup st.analysisMap (F.block b).name ∪ (S ∪ getInstructionsFromBB (F.block b)))
          (loopBody F st).analysisMap (F.block b).succs).reverse ++ rest := by
  have hp : ∀ (U un : VarSet) (m m' : AnalysisMap) (succs : List Nat),
      (∀ k, lookup m k = lookup m' k) →
      pushedItems F U un m succs = pushedItems F U un m' succs := by
    intro U un m m' succs hm
    unfold pushedItems
    congr 1
    apply List.filter_congr
    intro x _
    rw [hm]
  unfold loopBody
  rw [h]
  simp only [stack_pushSuccessors, union_sets, findTaintedVars_eq, lookup_subscript]
  congr 2
  apply hp
  intro k
  rw [lookup_pushSuccessors]

theorem mem_pushedItems (F : Func) (U un : VarSet) (m : AnalysisMap) (succs : List Nat)
    (s : Nat) (T : VarSet) :
    (s, T) ∈ pushedItems F U un m succs
      ↔ s ∈ succs ∧ lookup m (F.block s).name ≠ un ∧ T = U := by
  unfold pushedItems
  simp only [List.mem_map, List.mem_filter, decide_eq_true_eq, Prod.mk.injEq]
  constructor
  · rintro ⟨a, ⟨h1, h2⟩, rfl, rfl⟩
    exact ⟨h1, h2, rfl⟩
  · rintro ⟨h1, h2, rfl⟩
    exact ⟨s, ⟨h1, h2⟩, rfl, rfl⟩

theorem runLoop_succ (F : Func) (n : Nat) (st : State) :
    runLoop F (n + 1) st = loopBody F (runLoop F n st) := by
  unfold runLoop
  rw [Function.iterate_succ_apply']

theorem runLoop_add (F : Func) (a b : Nat) (st : State) :
    runLoop F (a + b) st = runLoop F a (runLoop F b st) := by
  unfold runLoop
  rw [Function.iterate_add_apply]

theorem whileLoop_eq_some (F : Func) (fuel : Nat) (st : State)
    (h : (runLoop F fuel st).traversalStack = []) :
    whileLoop F fuel st = some (runLoop F fuel st) := by
  induction fuel generalizing st with
  | zero =>
    simp only [runLoop, Function.iterate_zero, id_eq] at h
    simp [whileLoop, runLoop, h]
  | succ n ih =>
    unfold whileLoop
    by_cases he : st.traversalStack = []
    · have hfix : ∀ k, runLoop F k st = st := by
        intro k
        induction k with
        | zero => rfl
        | succ j ihj => rw [runLoop_succ, ihj, loopBody_nil F st he]
      simp [he, hfix]
    · have hne : st.traversalStack.isEmpty = false := by
        cases hs : st.traversalStack with
        | nil => exact absurd hs he
        | cons a l => rfl
      simp only [hne, Bool.false_eq_true, if_false]
      have h2 : runLoop F (n + 1) st = runLoop F n (loopBody F st) := by
        unfold runLoop
        rw [Function.iterate_succ_apply]
      rw [h2] at h ⊢
      exact ih _ h

theorem lookup_initialMap (F : Func) (k : String) : lookup (initialMap F) k = ∅ := by
  unfold initialMap
  have h : ∀ (bs : List BasicBlock) (m : AnalysisMap), (∀ k, lookup m k = ∅) →
      ∀ k, lookup (bs.foldl (fun m BB => assign m (getSimpleNodeLabel BB) ∅) m) k = ∅ := by
    intro bs
    induction bs with
    | nil => intro m hm k; exact hm k
    | cons B more ih =>
      intro m hm k
      simp only [List.foldl_cons]
      apply ih
      intro k'
      rw [lookup_assign]
      split_ifs
      · rfl
      · exact hm k'
  exact h F.blocks [] (fun _ => rfl) k

theorem block_of_lt (F : Func) (b : Nat) (h : b < F.blocks.length) :
    F.block b = F.blocks[b] := by
  unfold Func.block
  simp [List.getD_eq_getElem?_getD, List.getElem?_eq_getElem h]

theorem block_of_ge (F : Func) (b : Nat) (h : F.blocks.length ≤ b) :
    F.block b = default := by
  unfold Func.block
  simp [List.getD_eq_getElem?_getD, List.getElem?_eq_none h]

theorem block_mem (F : Func) (b : Nat) (h : b < F.blocks.length) :
    F.block b ∈ F.blocks := by
  rw [block_of_lt F b h]
  exact List.getElem_mem h


/-! ## Soundness of the rows -/

theorem name_eq_label_imp (F : Func) (hL : LabelsWF F) (b b0 : Nat)
    (hb : b < F.blocks.length)
    (h : getSimpleNodeLabel (F.block b) = (F.block b0).name) : b0 = b := by
  have hne : getSimpleNodeLabel (F.block b) ≠ "" := hL.2 _ (block_mem F b hb)
  have hb0 : b0 < F.blocks.length := by
    by_contra hge
    rw [block_of_ge F b0 (not_lt.mp hge)] at h
    exact hne h
  have hl0 : getSimpleNodeLabel (F.block b0) = (F.block b0).name := by
    unfold getSimpleNodeLabel
    rw [if_pos]
    rw [← h]
    exact hne
  have hinj := List.nodup_iff_injective_get.mp hL.1
  have hlen : (F.blocks.map getSimpleNodeLabel).length = F.blocks.length := List.length_map _ _
  have := @hinj ⟨b0, by rw [hlen]; exact hb0⟩ ⟨b, by rw [hlen]; exact hb⟩ (by
    simp only [List.get_eq_getElem, List.getElem_map]
    rw [← block_of_lt F b0 hb0, ← block_of_lt F b hb, hl0, h])
  exact Fin.mk.inj this

theorem soundAt_mono (F : Func) (b s : Nat) (X : VarSet) (h : SoundAt F b X)
    (hs : Edge F b s) : SoundAt F s X := by
  intro v hv
  obtain ⟨c, h1, h2, h3⟩ := h v hv
  exact ⟨c, h1, h2.tail hs, h3⟩

theorem soundAt_updated (F : Func) (b : Nat) (S : VarSet) (hr : Reach F F.entryBB b)
    (h : SoundAt F b S) : SoundAt F b (S ∪ getInstructionsFromBB (F.block b)) := by
  intro v hv
  rcases Finset.mem_union.mp hv with h1 | h1
  · exact h v h1
  · exact ⟨b, hr, Relation.ReflTransGen.refl, h1⟩

theorem invSound_initial (F : Func) : InvSound F (initialState F) := by
  constructor
  · intro item hi
    simp only [initialState, List.mem_singleton] at hi
    subst hi
    exact ⟨Relation.ReflTransGen.refl, fun v hv => absurd hv (Finset.not_mem_empty v)⟩
  · intro b _ v hv
    simp only [row, initialState, lookup_initialMap] at hv
    exact absurd hv (Finset.not_mem_empty v)

theorem invSound_loopBody (F : Func) (hL : LabelsWF F) (st : State) (h : InvSound F st) :
    InvSound F (loopBody F st) := by
  cases hs : st.traversalStack with
  | nil => rw [loopBody_nil F st hs]; exact h
  | cons top rest =>
    obtain ⟨b0, S0⟩ := top
    have htop := h.1 (b0, S0) (by rw [hs]; exact List.mem_cons_self _ _)
    have hU := soundAt_updated F b0 S0 htop.1 htop.2
    constructor
    · intro item hi
      rw [stack_loopBody F st b0 S0 rest hs] at hi
      rcases List.mem_append.mp hi with h1 | h1
      · obtain ⟨s, T⟩ := item
        rw [List.mem_reverse, mem_pushedItems] at h1
        obtain ⟨hsucc, _, rfl⟩ := h1
        exact ⟨htop.1.tail hsucc, soundAt_mono F b0 s _ hU hsucc⟩
      · exact h.1 item (by rw [hs]; exact List.mem_cons_of_mem _ h1)
    · intro b hb
      unfold row
      rw [lookup_loopBody F st b0 S0 rest hs]
      split_ifs with hk
      · have : b0 = b := name_eq_label_imp F hL b b0 hb hk
        subst this
        intro v hv
        rcases Finset.mem_union.mp hv with h1 | h1
        · exact h.2 b0 hb v h1
        · exact hU v h1
      · exact h.2 b hb

theorem invSound_runLoop (F : Func) (hL : LabelsWF F) (n : Nat) :
    InvSound F (runLoop F n (initialState F)) := by
  induction n with
  | zero => exact invSound_initial F
  | succ k ih => rw [runLoop_succ]; exact invSound_loopBody F hL _ ih


/-! ## The invariant of the loop on functions with distinct block names -/

theorem gen_subset_foldr (bs : List BasicBlock) (B : BasicBlock) (hmem : B ∈ bs) :
    getInstructionsFromBB B ⊆ bs.foldr (fun BB acc => getInstructionsFromBB BB ∪ acc) ∅ := by
  induction bs with
  | nil => exact absurd hmem (List.not_mem_nil _)
  | cons B0 more ih =>
    simp only [List.foldr_cons]
    rcases List.mem_cons.mp hmem with h | h
    · subst h; exact Finset.subset_union_left
    · exact (ih h).trans Finset.subset_union_right

theorem gen_subset_allVars (F : Func) (b : Nat) :
    getInstructionsFromBB (F.block b) ⊆ allVars F := by
  by_cases hb : b < F.blocks.length
  · exact gen_subset_foldr F.blocks _ (block_mem F b hb)
  · rw [block_of_ge F b (not_lt.mp hb)]
    intro v hv
    simp [getInstructionsFromBB, default] at hv

theorem name_inj (F : Func) (hN : NamesDistinct F) (b b0 : Nat)
    (hb : b < F.blocks.length) (hb0 : b0 < F.blocks.length)
    (h : (F.block b).name = (F.block b0).name) : b = b0 := by
  have hinj := List.nodup_iff_injective_get.mp hN
  have hlen : (F.blocks.map BasicBlock.name).length = F.blocks.length := List.length_map _ _
  have := @hinj ⟨b, by rw [hlen]; exact hb⟩ ⟨b0, by rw [hlen]; exact hb0⟩ (by
    simp only [List.get_eq_getElem, List.getElem_map]
    rw [← block_of_lt F b0 hb0, ← block_of_lt F b hb, h])
  exact Fin.mk.inj this

theorem out_loopBody (F : Func) (st : State) (b0 : Nat) (S0 : VarSet)
    (rest : List (Nat × VarSet)) (hs : st.traversalStack = (b0, S0) :: rest) (b : Nat) :
    out F (loopBody F st).analysisMap b
      = if (F.block b).name = (F.block b0).name
        then out F st.analysisMap b ∪ (S0 ∪ getInstructionsFromBB (F.block b0))
        else out F st.analysisMap b := by
  unfold out
  exact lookup_loopBody F st b0 S0 rest hs _

theorem out_mono (F : Func) (st : State) (b : Nat) :
    out F st.analysisMap b ⊆ out F (loopBody F st).analysisMap b := by
  cases hs : st.traversalStack with
  | nil => rw [loopBody_nil F st hs]
  | cons top rest =>
    obtain ⟨b0, S0⟩ := top
    rw [out_loopBody F st b0 S0 rest hs]
    split_ifs
    · exact Finset.subset_union_left
    · exact subset_rfl

theorem inv_initial (F : Func) (hne : 0 < F.blocks.length) : Inv F (initialState F) where
  valid := by
    intro item hi
    simp only [initialState, List.mem_singleton] at hi
    subst hi
    exact hne
  chain := by simp [initialState]
  edges := by
    intro b _ s _ v hv
    simp only [out, initialState, lookup_initialMap] at hv
    exact absurd hv (Finset.not_mem_empty v)
  mapBound := by
    intro k
    simp [initialState, lookup_initialMap]
  stackBound := by
    intro item hi
    simp only [initialState, List.mem_singleton] at hi
    subst hi
    exact Finset.empty_subset _
  own := by
    intro b _ hn
    simp only [out, initialState, lookup_initialMap] at hn
    exact absurd hn Finset.not_nonempty_empty
  entry := Or.inr ⟨∅, by simp [initialState]⟩

theorem inv_loopBody (F : Func) (hV : SuccsValid F) (hN : NamesDistinct F) (st : State)
    (h : Inv F st) : Inv F (loopBody F st) := by
  cases hs : st.traversalStack with
  | nil => rw [loopBody_nil F st hs]; exact h
  | cons top rest =>
    obtain ⟨b0, S0⟩ := top
    have hb0 : b0 < F.blocks.length := h.valid (b0, S0) (by rw [hs]; exact List.mem_cons_self _ _)
    have hrest : ∀ item ∈ rest, item ∈ st.traversalStack := by
      intro item hi; rw [hs]; exact List.mem_cons_of_mem _ hi
    have hchain := h.chain
    rw [hs, List.pairwise_cons] at hchain
    have hstack := stack_loopBody F st b0 S0 rest hs
    have hout := out_loopBody F st b0 S0 rest hs
    have hS0 : S0 ⊆ allVars F := h.stackBound (b0, S0) (by rw [hs]; exact List.mem_cons_self _ _)
    have hU : S0 ∪ getInstructionsFromBB (F.block b0) ⊆ allVars F :=
      Finset.union_subset hS0 (gen_subset_allVars F b0)
    have hpush : ∀ s T, (s, T) ∈ (loopBody F st).traversalStack →
        (s, T) ∈ rest ∨ (s ∈ (F.block b0).succs ∧
          T = S0 ∪ getInstructionsFromBB (F.block b0)) := by
      intro s T hi
      rw [hstack] at hi
      rcases List.mem_append.mp hi with h1 | h1
      · rw [List.mem_reverse, mem_pushedItems] at h1
        exact Or.inr ⟨h1.1, h1.2.2⟩
      · exact Or.inl h1
    refine ⟨?_, ?_, ?_, ?_, ?_, ?_, ?_⟩
    · intro item hi
      obtain ⟨s, T⟩ := item
      rcases hpush s T hi with h1 | ⟨h1, _⟩
      · exact h.valid _ (hrest _ h1)
      · exact hV _ (block_mem F b0 hb0) s h1
    · rw [hstack, List.pairwise_append]
      refine ⟨?_, hchain.2, ?_⟩
      · rw [List.pairwise_reverse]
        apply List.pairwise_of_forall_mem_list
        intro x hx y hy
        obtain ⟨x1, x2⟩ := x
        obtain ⟨y1, y2⟩ := y
        rw [mem_pushedItems] at hx hy
        rw [hx.2.2, hy.2.2]
      · intro x hx y hy
        obtain ⟨x1, x2⟩ := x
        rw [List.mem_reverse, mem_pushedItems] at hx
        rw [hx.2.2]
        exact (hchain.1 y hy).trans Finset.subset_union_left
    · intro b hb s hsb v hv
      have hcase : v ∈ out F st.analysisMap b ∨
          (b = b0 ∧ v ∈ S0 ∪ getInstructionsFromBB (F.block b0)) := by
        rw [hout] at hv
        split_ifs at hv with hname
        · rcases Finset.mem_union.mp hv with h1 | h1
          · exact Or.inl h1
          · exact Or.inr ⟨name_inj F hN b b0 hb hb0 hname, h1⟩
        · exact Or.inl hv
      rcases hcase with hold | ⟨hbb, hvU⟩
      · rcases h.edges b hb s hsb v hold with h1 | ⟨T, hT, hvT⟩
        · exact Or.inl (out_mono F st s h1)
        · rw [hs] at hT
          rcases List.mem_cons.mp hT with h2 | h2
          · left
            have hs0 : s = b0 := (Prod.mk.inj h2).1
            have hT0 : T = S0 := (Prod.mk.inj h2).2
            rw [hout, hs0, if_pos rfl]
            rw [hT0] at hvT
            exact Finset.mem_union_right _ (Finset.mem_union_left _ hvT)
          · right
            refine ⟨T, ?_, hvT⟩
            rw [hstack]
            exact List.mem_append_right _ h2
      · subst hbb
        by_cases hp : lookup (loopBody F st).analysisMap (F.block s).name
            = lookup st.analysisMap (F.block b).name ∪
              (S0 ∪ getInstructionsFromBB (F.block b))
        · left
          unfold out
          rw [hp]
          exact Finset.mem_union_right _ hvU
        · right
          refine ⟨_, ?_, hvU⟩
          rw [hstack]
          apply List.mem_append_left
          rw [List.mem_reverse, mem_pushedItems]
          exact ⟨hsb, hp, rfl⟩
    · intro k
      rw [lookup_loopBody F st b0 S0 rest hs]
      split_ifs
      · exact Finset.union_subset (h.mapBound k) hU
      · exact h.mapBound k
    · intro item hi
      obtain ⟨s, T⟩ := item
      rcases hpush s T hi with h1 | ⟨_, h1⟩
      · exact h.stackBound _ (hrest _ h1)
      · rw [h1]; exact hU
    · intro b hb hn
      rw [hout] at hn ⊢
      split_ifs at hn ⊢ with hname
      · have hbb : b = b0 := name_inj F hN b b0 hb hb0 hname
        subst hbb
        exact (Finset.subset_union_right.trans Finset.subset_union_right)
      · exact h.own b hb hn
    · rcases h.entry with h1 | ⟨T, hT⟩
      · exact Or.inl (h1.trans (out_mono F st _))
      · rw [hs] at hT
        rcases List.mem_cons.mp hT with h2 | h2
        · left
          have hs0 : F.entryBB = b0 := (Prod.mk.inj h2).1
          rw [hout, hs0, if_pos rfl]
          exact (Finset.subset_union_right.trans Finset.subset_union_right)
        · right
          refine ⟨T, ?_⟩
          rw [hstack]
          exact List.mem_append_right _ h2


/-! ## Termination on functions with distinct block names -/

theorem sum_map_le_length_mul {α : Type} (l : List α) (f : α → Nat) (W : Nat)
    (h : ∀ x ∈ l, f x ≤ W) : (l.map f).sum ≤ l.length * W := by
  induction l with
  | nil => simp
  | cons a more ih =>
    simp only [List.map_cons, List.sum_cons, List.length_cons]
    have h1 := h a (List.mem_cons_self _ _)
    have h2 := ih (fun x hx => h x (List.mem_cons_of_mem _ hx))
    nlinarith

theorem length_le_sum_map {α : Type} (l : List α) (f : α → Nat) (a : α) (h : a ∈ l) :
    f a ≤ (l.map f).sum := by
  induction l with
  | nil => exact absurd h (List.not_mem_nil _)
  | cons a0 more ih =>
    simp only [List.map_cons, List.sum_cons]
    rcases List.mem_cons.mp h with h1 | h1
    · subst h1; exact Nat.le_add_right _ _
    · exact (ih h1).trans (Nat.le_add_left _ _)

theorem succs_length_le (F : Func) (b : Nat) (hb : b < F.blocks.length) :
    (F.block b).succs.length ≤ maxSuccs F :=
  length_le_sum_map F.blocks (fun BB => BB.succs.length) _ (block_mem F b hb)

theorem pushedItems_length_le (F : Func) (U un : VarSet) (m : AnalysisMap)
    (succs : List Nat) : (pushedItems F U un m succs).length ≤ succs.length := by
  unfold pushedItems
  rw [List.length_map]
  exact List.length_filter_le _ _

theorem weight_congr (F : Func) (m m' : AnalysisMap) (h : ∀ k, lookup m' k = lookup m k)
    (item : Nat × VarSet) : weight F m' item = weight F m item := by
  unfold weight out
  rw [h]

theorem room_congr (F : Func) (m m' : AnalysisMap) (h : ∀ k, lookup m' k = lookup m k) :
    room F m' = room F m := by
  unfold room out
  simp only [h]

/-- An iteration that does not enlarge the set of the processed block leaves every
set as it was. -/
theorem lookup_loopBody_of_subset (F : Func) (st : State) (b0 : Nat) (S0 : VarSet)
    (rest : List (Nat × VarSet)) (hs : st.traversalStack = (b0, S0) :: rest)
    (hsub : S0 ∪ getInstructionsFromBB (F.block b0) ⊆ out F st.analysisMap b0) (k : String) :
    lookup (loopBody F st).analysisMap k = lookup st.analysisMap k := by
  rw [lookup_loopBody F st b0 S0 rest hs]
  split_ifs with hk
  · subst hk
    exact Finset.union_eq_left.mpr hsub
  · rfl

/-- An iteration that enlarges the set of the processed block lowers `room`. -/
theorem room_loopBody_lt (F : Func) (st : State) (h : Inv F st)
    (b0 : Nat) (S0 : VarSet) (rest : List (Nat × VarSet))
    (hs : st.traversalStack = (b0, S0) :: rest)
    (hgrow : ¬ S0 ∪ getInstructionsFromBB (F.block b0) ⊆ out F st.analysisMap b0) :
    room F (loopBody F st).analysisMap < room F st.analysisMap := by
  have hb0 : b0 < F.blocks.length := h.valid (b0, S0) (by rw [hs]; exact List.mem_cons_self _ _)
  have hS0 : S0 ⊆ allVars F := h.stackBound (b0, S0) (by rw [hs]; exact List.mem_cons_self _ _)
  have hout := out_loopBody F st b0 S0 rest hs
  unfold room
  apply Finset.sum_lt_sum
  · intro b _
    have := Finset.card_le_card (out_mono F st b)
    omega
  · refine ⟨b0, Finset.mem_range.mpr hb0, ?_⟩
    have hlt : (out F st.analysisMap b0).card < (out F (loopBody F st).analysisMap b0).card := by
      apply Finset.card_lt_card
      rw [Finset.ssubset_iff_subset_ne]
      refine ⟨out_mono F st b0, ?_⟩
      intro heq
      apply hgrow
      rw [heq, hout, if_pos rfl]
      exact Finset.subset_union_right
    have hle : (out F (loopBody F st).analysisMap b0).card ≤ (allVars F).card := by
      apply Finset.card_le_card
      rw [hout, if_pos rfl]
      exact Finset.union_subset (h.mapBound _)
        (Finset.union_subset hS0 (gen_subset_allVars F b0))
    omega

/-- An iteration that does not enlarge the set of the processed block lowers the
weight of the stack. -/
theorem stackWeight_loopBody_lt (F : Func) (st : State) (h : Inv F st)
    (b0 : Nat) (S0 : VarSet) (rest : List (Nat × VarSet))
    (hs : st.traversalStack = (b0, S0) :: rest)
    (hsub : S0 ∪ getInstructionsFromBB (F.block b0) ⊆ out F st.analysisMap b0) :
    stackWeight F (loopBody F st) < stackWeight F st := by
  have hb0 : b0 < F.blocks.length := h.valid (b0, S0) (by rw [hs]; exact List.mem_cons_self _ _)
  have hlk := lookup_loopBody_of_subset F st b0 S0 rest hs hsub
  have hchain := h.chain
  rw [hs, List.pairwise_cons] at hchain
  have hun : lookup st.analysisMap (F.block b0).name ∪
      (S0 ∪ getInstructionsFromBB (F.block b0)) = out F st.analysisMap b0 :=
    Finset.union_eq_left.mpr hsub
  unfold stackWeight
  rw [stack_loopBody F st b0 S0 rest hs, hs, hun]
  simp only [List.map_append, List.sum_append, List.map_cons, List.sum_cons, List.map_reverse,
    List.sum_reverse]
  have hw : weight F (loopBody F st).analysisMap = weight F st.analysisMap :=
    funext (weight_congr F _ _ hlk)
  rw [hw]
  have htop : weight F st.analysisMap (b0, S0)
      = (maxSuccs F + 1) ^ ((allVars F).card - (out F st.analysisMap b0).card) := by
    unfold weight
    rw [if_pos hsub]
  rw [htop]
  have hchild : ∀ item ∈ pushedItems F (S0 ∪ getInstructionsFromBB (F.block b0))
      (out F st.analysisMap b0) (loopBody F st).analysisMap (F.block b0).succs,
      weight F st.analysisMap item ≤
        if (allVars F).card - (out F st.analysisMap b0).card = 0 then 0
        else (maxSuccs F + 1) ^ ((allVars F).card - (out F st.analysisMap b0).card - 1) := by
    intro item hi
    obtain ⟨s, T⟩ := item
    rw [mem_pushedItems] at hi
    obtain ⟨hsucc, hne, rfl⟩ := hi
    rw [hlk] at hne
    unfold weight
    dsimp only
    split_ifs with hc hz hz
    · exfalso
      have hsubs : out F st.analysisMap b0 ⊆ out F st.analysisMap s := by
        intro v hv
        rcases h.edges b0 hb0 s hsucc v hv with h1 | ⟨T, hT, hvT⟩
        · exact h1
        · apply hc
          apply Finset.mem_union_left
          apply Finset.mem_union_left
          rw [hs] at hT
          rcases List.mem_cons.mp hT with h2 | h2
          · rw [(Prod.mk.inj h2).2] at hvT; exact hvT
          · exact hchain.1 _ h2 hvT
      have hlt : (out F st.analysisMap b0).card < (out F st.analysisMap s).card := by
        apply Finset.card_lt_card
        rw [Finset.ssubset_iff_subset_ne]
        exact ⟨hsubs, fun heq => hne heq.symm⟩
      have hle : (out F st.analysisMap s).card ≤ (allVars F).card :=
        Finset.card_le_card (h.mapBound _)
      omega
    · have hsubs : out F st.analysisMap b0 ⊆ out F st.analysisMap s := by
        intro v hv
        rcases h.edges b0 hb0 s hsucc v hv with h1 | ⟨T, hT, hvT⟩
        · exact h1
        · apply hc
          apply Finset.mem_union_left
          apply Finset.mem_union_left
          rw [hs] at hT
          rcases List.mem_cons.mp hT with h2 | h2
          · rw [(Prod.mk.inj h2).2] at hvT; exact hvT
          · exact hchain.1 _ h2 hvT
      have hlt : (out F st.analysisMap b0).card < (out F st.analysisMap s).card := by
        apply Finset.card_lt_card
        rw [Finset.ssubset_iff_subset_ne]
        exact ⟨hsubs, fun heq => hne heq.symm⟩
      apply Nat.pow_le_pow_right (Nat.succ_pos _)
      omega
    · exact Nat.zero_le _
    · exact Nat.zero_le _
  have hsum := sum_map_le_length_mul _ (weight F st.analysisMap) _ hchild
  have hlen : (pushedItems F (S0 ∪ getInstructionsFromBB (F.block b0))
      (out F st.analysisMap b0) (loopBody F st).analysisMap (F.block b0).succs).length
      ≤ maxSuccs F :=
    (pushedItems_length_le _ _ _ _ _).trans (succs_length_le F b0 hb0)
  have hDW : ∀ D h0 : Nat, D * (if h0 = 0 then 0 else (D + 1) ^ (h0 - 1)) < (D + 1) ^ h0 := by
    intro D h0
    split_ifs with hz
    · simp
    · obtain ⟨j, hj⟩ := Nat.exists_eq_succ_of_ne_zero hz
      rw [hj, Nat.succ_sub_one, pow_succ]
      have hp : 0 < (D + 1) ^ j := pow_pos (Nat.succ_pos _) _
      nlinarith
  have hmul := Nat.mul_le_mul_right
    (if (allVars F).card - (out F st.analysisMap b0).card = 0 then 0
        else (maxSuccs F + 1) ^ ((allVars F).card - (out F st.analysisMap b0).card - 1)) hlen
  have hfin := hDW (maxSuccs F) ((allVars F).card - (out F st.analysisMap b0).card)
  omega

theorem runLoop_terminates_from (F : Func) (hV : SuccsValid F) (hN : NamesDistinct F) :
    ∀ (a w : Nat) (st : State), Inv F st → room F st.analysisMap = a → stackWeight F st = w →
      ∃ n, (runLoop F n st).traversalStack = [] := by
  intro a
  induction a using Nat.strong_induction_on with
  | _ a iha =>
    intro w
    induction w using Nat.strong_induction_on with
    | _ w ihw =>
      intro st hinv ha hw
      cases hs : st.traversalStack with
      | nil => exact ⟨0, hs⟩
      | cons top rest =>
        obtain ⟨b0, S0⟩ := top
        have hinv' := inv_loopBody F hV hN st hinv
        have hstep : ∀ n, runLoop F (n + 1) st = runLoop F n (loopBody F st) := by
          intro n
          unfold runLoop
          rw [Function.iterate_succ_apply]
        by_cases hsub : S0 ∪ getInstructionsFromBB (F.block b0) ⊆ out F st.analysisMap b0
        · have hlt := stackWeight_loopBody_lt F st hinv b0 S0 rest hs hsub
          have hroom := room_congr F st.analysisMap (loopBody F st).analysisMap
            (lookup_loopBody_of_subset F st b0 S0 rest hs hsub)
          obtain ⟨n, hn⟩ := ihw _ (hw ▸ hlt) (loopBody F st) hinv' (hroom.trans ha) rfl
          exact ⟨n + 1, by rw [hstep]; exact hn⟩
        · have hlt := room_loopBody_lt F st hinv b0 S0 rest hs hsub
          obtain ⟨n, hn⟩ := iha _ (ha ▸ hlt) _ (loopBody F st) hinv' rfl rfl
          exact ⟨n + 1, by rw [hstep]; exact hn⟩

/-- On a function whose blocks have distinct names and whose successors are blocks of
the function, the loop of `main` empties the stack after finitely many iterations. -/
theorem runLoop_terminates (F : Func) (hne : 0 < F.blocks.length) (hV : SuccsValid F)
    (hN : NamesDistinct F) :
    ∃ n, (runLoop F n (initialState F)).traversalStack = [] :=
  runLoop_terminates_from F hV hN _ _ _ (inv_initial F hne) rfl rfl


/-! ## The sets on exit from the loop -/

theorem inv_runLoop (F : Func) (hne : 0 < F.blocks.length) (hV : SuccsValid F)
    (hN : NamesDistinct F) (n : Nat) : Inv F (runLoop F n (initialState F)) := by
  induction n with
  | zero => exact inv_initial F hne
  | succ k ih => rw [runLoop_succ]; exact inv_loopBody F hV hN _ ih

theorem label_eq_name (F : Func) (hA : AllNamed F) (b : Nat) :
    getSimpleNodeLabel (F.block b) = (F.block b).name := by
  by_cases hb : b < F.blocks.length
  · unfold getSimpleNodeLabel
    rw [if_pos (hA _ (block_mem F b hb))]
  · rw [block_of_ge F b (not_lt.mp hb)]
    rfl

theorem row_eq_out (F : Func) (hA : AllNamed F) (m : AnalysisMap) (b : Nat) :
    row F m b = out F m b := by
  unfold row out
  rw [label_eq_name F hA b]

theorem labelsWF_of_named (F : Func) (hN : NamesDistinct F) (hA : AllNamed F) :
    LabelsWF F := by
  have hmap : F.blocks.map getSimpleNodeLabel = F.blocks.map BasicBlock.name := by
    apply List.map_congr_left
    intro BB hBB
    unfold getSimpleNodeLabel
    rw [if_pos (hA BB hBB)]
  constructor
  · rw [hmap]; exact hN
  · intro BB hBB
    unfold getSimpleNodeLabel
    rw [if_pos (hA BB hBB)]
    exact hA BB hBB

theorem reach_valid (F : Func) (hne : 0 < F.blocks.length) (hV : SuccsValid F) (b : Nat)
    (h : Reach F F.entryBB b) : b < F.blocks.length := by
  induction h with
  | refl => exact hne
  | tail _ hedge ih => exact hV _ (block_mem F _ ih) _ hedge

/-- With an empty stack, the set of a block is contained in the set of each successor. -/
theorem final_edge (F : Func) (st : State) (hinv : Inv F st) (hend : st.traversalStack = [])
    (b : Nat) (hb : b < F.blocks.length) (s : Nat) (hs : Edge F b s) :
    out F st.analysisMap b ⊆ out F st.analysisMap s := by
  intro v hv
  rcases hinv.edges b hb s hs v hv with h1 | ⟨T, hT, _⟩
  · exact h1
  · rw [hend] at hT
    exact absurd hT (List.not_mem_nil _)

/-- With an empty stack and an entry block that stores, the set of every block reachable
from the entry block is not empty and holds the block's own store targets. -/
theorem final_own (F : Func) (hne : 0 < F.blocks.length) (hV : SuccsValid F) (st : State)
    (hinv : Inv F st) (hend : st.traversalStack = [])
    (hE : (getInstructionsFromBB (F.block F.entryBB)).Nonempty)
    (b : Nat) (h : Reach F F.entryBB b) :
    (out F st.analysisMap b).Nonempty ∧
      getInstructionsFromBB (F.block b) ⊆ out F st.analysisMap b := by
  have hnonempty : (out F st.analysisMap b).Nonempty := by
    induction h with
    | refl =>
      rcases hinv.entry with h1 | ⟨T, hT⟩
      · exact hE.mono h1
      · rw [hend] at hT
        exact absurd hT (List.not_mem_nil _)
    | tail hreach hedge ih =>
      exact ih.mono (final_edge F st hinv hend _ (reach_valid F hne hV _ hreach) _ hedge)
  exact ⟨hnonempty, hinv.own b (reach_valid F hne hV b h) hnonempty⟩


/-! ## Runs that never end -/

theorem whileLoop_eq_none (F : Func) (fuel : Nat) (st : State)
    (h : (runLoop F fuel st).traversalStack ≠ []) : whileLoop F fuel st = none := by
  induction fuel generalizing st with
  | zero =>
    simp only [runLoop, Function.iterate_zero, id_eq] at h
    cases hs : st.traversalStack with
    | nil => exact absurd hs h
    | cons a l => simp [whileLoop, hs]
  | succ n ih =>
    have hne : st.traversalStack ≠ [] := by
      intro he
      apply h
      have hfix : ∀ k, runLoop F k st = st := by
        intro k
        induction k with
        | zero => rfl
        | succ j ihj => rw [runLoop_succ, ihj, loopBody_nil F st he]
      rw [hfix]; exact he
    unfold whileLoop
    cases hs : st.traversalStack with
    | nil => exact absurd hs hne
    | cons a l =>
      simp only [List.isEmpty_cons, Bool.false_eq_true, if_false]
      apply ih
      have h2 : runLoop F (n + 1) st = runLoop F n (loopBody F st) := by
        unfold runLoop
        rw [Function.iterate_succ_apply]
      rw [← h2]; exact h

/-- A state that comes back after `p` iterations, none of which starts with an empty
stack, never reaches an empty stack. -/
theorem stack_ne_nil_of_cycle (F : Func) (st : State) (p : Nat) (hp : 0 < p)
    (hcyc : runLoop F p st = st) (hne : ∀ i, i < p → (runLoop F i st).traversalStack ≠ []) :
    ∀ n, (runLoop F n st).traversalStack ≠ [] := by
  have hmul : ∀ q, runLoop F (p * q) st = st := by
    intro q
    induction q with
    | zero => rfl
    | succ j ih =>
      rw [Nat.mul_succ, runLoop_add, hcyc, ih]
  intro n
  have hn : runLoop F n st = runLoop F (n % p) st := by
    conv_lhs => rw [← Nat.mod_add_div n p, runLoop_add, hmul]
  rw [hn]
  exact hne _ (Nat.mod_lt _ hp)


/-! ## Self-edges -/

/-- An iteration never pushes the block it processes: after line 63 the set stored under
the block's name is the union the successors are compared with. -/
theorem self_edge_not_pushed (F : Func) (st : State) (b0 : Nat) (S0 : VarSet)
    (rest : List (Nat × VarSet)) (hs : st.traversalStack = (b0, S0) :: rest) (T : VarSet) :
    (b0, T) ∉ pushedItems F (S0 ∪ getInstructionsFromBB (F.block b0))
      (lookup st.analysisMap (F.block b0).name ∪ (S0 ∪ getInstructionsFromBB (F.block b0)))
      (loopBody F st).analysisMap (F.block b0).succs := by
  intro hmem
  rw [mem_pushedItems] at hmem
  apply hmem.2.1
  rw [lookup_loopBody F st b0 S0 rest hs, if_pos rfl]


theorem pushedItems_pair (F : Func) (U un : VarSet) (m : AnalysisMap) (s t : Nat)
    (hs : lookup m (F.block s).name = un) :
    pushedItems F U un m [s, t]
      = (if lookup m (F.block t).name = un then [] else [(t, U)]) ∧
    pushedItems F U un m [t, s]
      = (if lookup m (F.block t).name = un then [] else [(t, U)]) := by
  unfold pushedItems
  by_cases ht : lookup m (F.block t).name = un
  · simp [List.filter_cons, hs, ht]
  · simp [List.filter_cons, hs, ht]

/-- Claim C10 fails on `unnamedSelfLoop`, Scenario C with an unnamed block `B`: the loop
ends after two iterations, but the row of `B`, the entry `main` created for it under its
label `%0`, is empty on exit, not `{z}`; `{z}` is stored under the empty key. -/
theorem unnamedSelfLoop_row_empty :
    ∃ st, whileLoop unnamedSelfLoop 2 (initialState unnamedSelfLoop) = some st ∧
      row unnamedSelfLoop st.analysisMap 0 = ∅ ∧
      getInstructionsFromBB (unnamedSelfLoop.block 0) = {some 3} ∧
      st.analysisMap = [("", {some 3}), ("%0", ∅), ("exit", {some 3})] := by
  refine ⟨runLoop unnamedSelfLoop 2 (initialState unnamedSelfLoop), ?_, ?_, ?_, ?_⟩ <;> decide

/-- In a diamond every successor is a block of the function. -/
theorem isDiamond_succsValid (F : Func) (hD : IsDiamond F) : SuccsValid F := by
  obtain ⟨hlen, h0, h1, h2, h3⟩ := hD
  intro BB hBB s hs
  obtain ⟨i, hi, rfl⟩ := List.mem_iff_getElem.mp hBB
  rw [← block_of_lt F i hi] at hs
  rw [hlen] at hi ⊢
  interval_cases i
  · rcases h0 with h0 | h0 <;> rw [h0] at hs <;> simp at hs <;> omega
  · rw [h1] at hs; simp at hs; omega
  · rw [h2] at hs; simp at hs; omega
  · rw [h3] at hs; simp at hs

/-! ## The claims -/

/-- Claim C1 as stated fails: in `silentEntry` the entry block has no store; the loop
ends after one iteration, block `B1` is reachable from the entry block, and the row of
`B1` does not contain the store target of `B1`. -/
theorem silentEntry_row_misses_store :
    ∃ st, whileLoop silentEntry 1 (initialState silentEntry) = some st ∧
      Reach silentEntry silentEntry.entryBB 1 ∧
      ¬ getInstructionsFromBB (silentEntry.block 1) ⊆ row silentEntry st.analysisMap 1 := by
  refine ⟨runLoop silentEntry 1 (initialState silentEntry), by decide, ?_, by decide⟩
  exact Relation.ReflTransGen.single (by decide)

/-- Claim C1, amended: on a function whose blocks all have names, no two the same,
whose successors are blocks of the function and whose entry block contains a store, the
loop of `main` finishes, and on exit the row of every block `b` reachable from the entry
block contains the store targets of `b` and the row of every predecessor of `b` that is
reachable from the entry block. -/
theorem final_rows_solve_equations (F : Func) (hne : 0 < F.blocks.length)
    (hV : SuccsValid F) (hN : NamesDistinct F) (hA : AllNamed F)
    (hE : (getInstructionsFromBB (F.block F.entryBB)).Nonempty) :
    ∃ fuel st, whileLoop F fuel (initialState F) = some st ∧
      ∀ b, Reach F F.entryBB b →
        getInstructionsFromBB (F.block b) ⊆ row F st.analysisMap b ∧
        ∀ p, Reach F F.entryBB p → Edge F p b →
          row F st.analysisMap p ⊆ row F st.analysisMap b := by
  obtain ⟨n, hn⟩ := runLoop_terminates F hne hV hN
  have hinv := inv_runLoop F hne hV hN n
  refine ⟨n, _, whileLoop_eq_some F n _ hn, ?_⟩
  intro b hb
  simp only [row_eq_out F hA]
  refine ⟨(final_own F hne hV _ hinv hn hE b hb).2, ?_⟩
  intro p hp hedge
  exact final_edge F _ hinv hn p (reach_valid F hne hV p hp) b hedge

/-- Claim C1, amended, on Scenario A. -/
theorem final_rows_solve_equations_scenarioA :
    (0 < scenarioA.blocks.length ∧ SuccsValid scenarioA ∧ NamesDistinct scenarioA ∧
      AllNamed scenarioA ∧
      (getInstructionsFromBB (scenarioA.block scenarioA.entryBB)).Nonempty) ∧
    ∃ fuel st, whileLoop scenarioA fuel (initialState scenarioA) = some st ∧
      ∀ b, Reach scenarioA scenarioA.entryBB b →
        getInstructionsFromBB (scenarioA.block b) ⊆ row scenarioA st.analysisMap b ∧
        ∀ p, Reach scenarioA scenarioA.entryBB p → Edge scenarioA p b →
          row scenarioA st.analysisMap p ⊆ row scenarioA st.analysisMap b :=
  ⟨by decide, final_rows_solve_equations scenarioA (by decide) (by decide) (by decide)
    (by decide) (by decide)⟩

/-- The rows under the labels are sound: on a function with the labels of an LLVM function
(no two blocks have the same label, no label is empty), after any number of iterations
of the loop of `main`,
every member of the row of a block `b` is the cast of the target of a store in a block
`c` that lies on a path from the entry block to `b`. -/
theorem rows_sound (F : Func) (hL : LabelsWF F) (n b : Nat) (hb : b < F.blocks.length) :
    ∀ v ∈ row F (runLoop F n (initialState F)).analysisMap b,
      ∃ c, Reach F F.entryBB c ∧ Reach F c b ∧ v ∈ getInstructionsFromBB (F.block c) :=
  (invSound_runLoop F hL n).2 b hb

/-- Soundness of the rows on Scenario A, after two iterations, at block `B1`. -/
theorem rows_sound_scenarioA :
    (LabelsWF scenarioA ∧ 1 < scenarioA.blocks.length) ∧
    ∀ v ∈ row scenarioA (runLoop scenarioA 2 (initialState scenarioA)).analysisMap 1,
      ∃ c, Reach scenarioA scenarioA.entryBB c ∧ Reach scenarioA c 1 ∧
        v ∈ getInstructionsFromBB (scenarioA.block c) :=
  ⟨by decide, rows_sound scenarioA (by decide) 2 1 (by decide)⟩

/-- Claim C3 fails on `whileUnnamed`, a `while` loop with unnamed body and exit blocks:
the loop of `main` never empties its stack, so the bounded loop gives no result
whatever the bound. -/
theorem whileUnnamed_never_terminates :
    ∀ fuel, whileLoop whileUnnamed fuel (initialState whileUnnamed) = none := by
  intro fuel
  apply whileLoop_eq_none
  by_cases h : fuel < 4
  · interval_cases fuel <;> decide
  · obtain ⟨k, rfl⟩ : ∃ k, fuel = k + 4 := ⟨fuel - 4, by omega⟩
    rw [runLoop_add]
    apply stack_ne_nil_of_cycle whileUnnamed _ 3 (by decide)
    · decide
    · intro i hi
      interval_cases i <;> decide

/-- Claim C4 fails on `forkUnnamed`: the stack-driven loop ends after five iterations,
the queue-driven loop after three, and the row of the block `head` is `{x, y}` after the
first and `{x}` after the second. -/
theorem forkUnnamed_stack_queue_differ :
    ∃ s q, whileLoop forkUnnamed 5 (initialState forkUnnamed) = some s ∧
      whileLoopQueue forkUnnamed 3 (initialState forkUnnamed) = some q ∧
      row forkUnnamed s.analysisMap 3 = {some 1, some 2} ∧
      row forkUnnamed q.analysisMap 3 = {some 1} ∧
      s.analysisMap ≠ q.analysisMap := by
  refine ⟨runLoop forkUnnamed 5 (initialState forkUnnamed),
    (loopBodyQueue forkUnnamed)^[3] (initialState forkUnnamed), ?_, ?_, ?_, ?_, ?_⟩ <;> decide

/-- Claim C5 fails on `latchUnnamed`: the loop ends after four iterations with a map
`M`, and the loop started again from `M` with the entry block on the stack never
empties its stack. -/
theorem latchUnnamed_rerun_never_terminates :
    ∃ st, whileLoop latchUnnamed 4 (initialState latchUnnamed) = some st ∧
      ∀ fuel, whileLoop latchUnnamed fuel ⟨st.analysisMap, [(latchUnnamed.entryBB, ∅)]⟩
        = none := by
  refine ⟨runLoop latchUnnamed 4 (initialState latchUnnamed), by decide, ?_⟩
  intro fuel
  apply whileLoop_eq_none
  by_cases h : fuel < 1
  · interval_cases fuel; decide
  · obtain ⟨k, rfl⟩ : ∃ k, fuel = k + 1 := ⟨fuel - 1, by omega⟩
    rw [runLoop_add]
    apply stack_ne_nil_of_cycle latchUnnamed _ 2 (by decide)
    · decide
    · intro i hi
      interval_cases i <;> decide

/-- Claim C6: one iteration of the loop of `main`, from any state of any function, leaves
the set of every block (under its label and under its name) a superset of what it was. -/
theorem loopBody_sets_grow (F : Func) (st : State) (b : Nat) :
    row F st.analysisMap b ⊆ row F (loopBody F st).analysisMap b ∧
    out F st.analysisMap b ⊆ out F (loopBody F st).analysisMap b := by
  constructor
  · unfold row
    cases hs : st.traversalStack with
    | nil => rw [loopBody_nil F st hs]
    | cons top rest =>
      obtain ⟨b0, S0⟩ := top
      rw [lookup_loopBody F st b0 S0 rest hs]
      split_ifs
      · exact Finset.subset_union_left
      · exact subset_rfl
  · exact out_mono F st b

/-- Claim C7: on a function with the labels of an LLVM function (no two blocks have the
same label, no label is empty), a block `b` that no path from the entry block reaches has
an empty row after any number of iterations of the loop of `main`, and is on the stack
after none of them. -/
theorem unreachable_row_stays_empty (F : Func) (hL : LabelsWF F) (b : Nat)
    (hb : b < F.blocks.length) (hu : ¬ Reach F F.entryBB b) (n : Nat) :
    row F (runLoop F n (initialState F)).analysisMap b = ∅ ∧
    ∀ item ∈ (runLoop F n (initialState F)).traversalStack, item.1 ≠ b := by
  have hinv := invSound_runLoop F hL n
  constructor
  · apply Finset.eq_empty_of_forall_not_mem
    intro v hv
    obtain ⟨c, h1, h2, _⟩ := hinv.2 b hb v hv
    exact hu (h1.trans h2)
  · intro item hi heq
    apply hu
    rw [← heq]
    exact (hinv.1 item hi).1

/-- Claim C7 on `deadBlock`, whose block `%1` has no predecessor, after one iteration. -/
theorem unreachable_row_stays_empty_deadBlock :
    (LabelsWF deadBlock ∧ 1 < deadBlock.blocks.length ∧
      ¬ Reach deadBlock deadBlock.entryBB 1) ∧
    (row deadBlock (runLoop deadBlock 1 (initialState deadBlock)).analysisMap 1 = ∅ ∧
      ∀ item ∈ (runLoop deadBlock 1 (initialState deadBlock)).traversalStack, item.1 ≠ 1) := by
  have hu : ¬ Reach deadBlock deadBlock.entryBB 1 := by
    intro h
    rcases Relation.ReflTransGen.cases_tail h with h1 | ⟨c, _, hedge⟩
    · exact absurd h1 (by decide)
    · have hno : ∀ c, ¬ Edge deadBlock c 1 := by
        intro c
        rcases c with _ | _ | c
        · decide
        · decide
        · simp [Edge, Func.block, deadBlock, default]
      exact hno c hedge
  exact ⟨⟨by decide, by decide, hu⟩,
    unreachable_row_stays_empty deadBlock (by decide) 1 (by decide) hu 1⟩

/-- Claim C8 as stated fails at its own witness: in `diamondSpec` the blocks `entry` and
`B3` store to nothing, `B1` stores to `a` and `B2` to `b`; the loop ends after one
iteration and the row of `B3` is empty, not `{a, b}`. -/
theorem diamondSpec_B3_row_empty :
    ∃ st, whileLoop diamondSpec 1 (initialState diamondSpec) = some st ∧
      row diamondSpec st.analysisMap 3 = ∅ ∧
      row diamondSpec st.analysisMap 3 ≠
        getInstructionsFromBB (diamondSpec.block 0) ∪ getInstructionsFromBB (diamondSpec.block 1)
          ∪ getInstructionsFromBB (diamondSpec.block 2)
          ∪ getInstructionsFromBB (diamondSpec.block 3) := by
  refine ⟨runLoop diamondSpec 1 (initialState diamondSpec), ?_, ?_, ?_⟩ <;> decide

/-- Claim C8, amended: on a diamond `entry → {B1, B2} → B3` whose blocks all have names,
no two the same, and whose entry block contains a store, the loop of `main` finishes and
on exit the row of `B3` is the union of the store targets of the four blocks, whichever
of `B1` and `B2` comes first among the successors of the entry block. -/
theorem diamond_join (F : Func) (hD : IsDiamond F) (hN : NamesDistinct F) (hA : AllNamed F)
    (hE : (getInstructionsFromBB (F.block F.entryBB)).Nonempty) :
    ∃ fuel st, whileLoop F fuel (initialState F) = some st ∧
      row F st.analysisMap 3 =
        getInstructionsFromBB (F.block 0) ∪ getInstructionsFromBB (F.block 1)
          ∪ getInstructionsFromBB (F.block 2) ∪ getInstructionsFromBB (F.block 3) := by
  have hV := isDiamond_succsValid F hD
  obtain ⟨hlen, h0, h1, h2, h3⟩ := hD
  have hne : 0 < F.blocks.length := by omega
  obtain ⟨n, hn⟩ := runLoop_terminates F hne hV hN
  have hinv := inv_runLoop F hne hV hN n
  have hsound := invSound_runLoop F (labelsWF_of_named F hN hA) n
  refine ⟨n, _, whileLoop_eq_some F n _ hn, ?_⟩
  have e01 : Edge F 0 1 := by
    unfold Edge; rcases h0 with h0 | h0 <;> rw [h0] <;> simp
  have e02 : Edge F 0 2 := by
    unfold Edge; rcases h0 with h0 | h0 <;> rw [h0] <;> simp
  have e13 : Edge F 1 3 := by unfold Edge; rw [h1]; simp
  have e23 : Edge F 2 3 := by unfold Edge; rw [h2]; simp
  have r0 : Reach F F.entryBB 0 := Relation.ReflTransGen.refl
  have r1 : Reach F F.entryBB 1 := r0.tail e01
  have r2 : Reach F F.entryBB 2 := r0.tail e02
  have r3 : Reach F F.entryBB 3 := r1.tail e13
  apply Finset.Subset.antisymm
  · intro v hv
    obtain ⟨c, _, _, hc⟩ := hsound.2 3 (by omega) v hv
    have hc4 : c < 4 := by
      by_contra hge
      rw [block_of_ge F c (by omega)] at hc
      simp [getInstructionsFromBB, default] at hc
    simp only [Finset.mem_union]
    interval_cases c <;> tauto
  · rw [row_eq_out F hA]
    have s01 := final_edge F _ hinv hn 0 (by omega) 1 e01
    have s02 := final_edge F _ hinv hn 0 (by omega) 2 e02
    have s13 := final_edge F _ hinv hn 1 (by omega) 3 e13
    have s23 := final_edge F _ hinv hn 2 (by omega) 3 e23
    have g0 := (final_own F hne hV _ hinv hn hE 0 r0).2
    have g1 := (final_own F hne hV _ hinv hn hE 1 r1).2
    have g2 := (final_own F hne hV _ hinv hn hE 2 r2).2
    have g3 := (final_own F hne hV _ hinv hn hE 3 r3).2
    exact Finset.union_subset (Finset.union_subset (Finset.union_subset
      (g0.trans (s01.trans s13)) (g1.trans s13)) (g2.trans s23)) g3

/-- Claim C8, amended, on `diamondStored`. -/
theorem diamond_join_diamondStored :
    (IsDiamond diamondStored ∧ NamesDistinct diamondStored ∧ AllNamed diamondStored ∧
      (getInstructionsFromBB (diamondStored.block diamondStored.entryBB)).Nonempty) ∧
    ∃ fuel st, whileLoop diamondStored fuel (initialState diamondStored) = some st ∧
      row diamondStored st.analysisMap 3 =
        getInstructionsFromBB (diamondStored.block 0)
          ∪ getInstructionsFromBB (diamondStored.block 1)
          ∪ getInstructionsFromBB (diamondStored.block 2)
          ∪ getInstructionsFromBB (diamondStored.block 3) :=
  ⟨by decide, diamond_join diamondStored (by decide) (by decide) (by decide) (by decide)⟩

/-- Claim C9 fails on `unnamedChain`, Scenario A with unnamed blocks: the loop ends after
one iteration; for the second block neither the row nor the set under its name is the
union `{x, y}` of the store targets of the first two blocks: the row is empty and the
set under the name is `{x}`. -/
theorem unnamedChain_second_block :
    ∃ st, whileLoop unnamedChain 1 (initialState unnamedChain) = some st ∧
      row unnamedChain st.analysisMap 1 ≠
        getInstructionsFromBB (unnamedChain.block 0)
          ∪ getInstructionsFromBB (unnamedChain.block 1) ∧
      out unnamedChain st.analysisMap 1 ≠
        getInstructionsFromBB (unnamedChain.block 0)
          ∪ getInstructionsFromBB (unnamedChain.block 1) ∧
      row unnamedChain st.analysisMap 1 = ∅ ∧
      out unnamedChain st.analysisMap 1 = {some 1} := by
  refine ⟨runLoop unnamedChain 1 (initialState unnamedChain), ?_, ?_, ?_, ?_, ?_⟩ <;> decide

/-- Self-loops: on a function whose entry block `B` branches to itself and to an exit
block without successors, whatever the names and the stores of the two blocks,
the loop of `main` ends within two iterations, the set it keeps for `B` (stored under the
name of `B`, line 63) is the set of store targets of `B`, it is also the row of `B` when `B`
has a name, and `B` is on the stack after no iteration: it is never pushed again. -/
theorem selfLoop_final (F : Func)
    (h0 : (F.block 0).succs = [0, 1] ∨ (F.block 0).succs = [1, 0])
    (h1 : (F.block 1).succs = []) :
    ∃ st, whileLoop F 2 (initialState F) = some st ∧
      out F st.analysisMap 0 = getInstructionsFromBB (F.block 0) ∧
      ((F.block 0).name ≠ "" → row F st.analysisMap 0 = getInstructionsFromBB (F.block 0)) ∧
      ∀ n, ∀ item ∈ (runLoop F (n + 1) (initialState F)).traversalStack, item.1 ≠ 0 := by
  have hs0 : (initialState F).traversalStack = [(0, ∅)] := rfl
  have hl1 := lookup_loopBody F (initialState F) 0 ∅ [] hs0
  have hst1 := stack_loopBody F (initialState F) 0 ∅ [] hs0
  have hlk0 : ∀ k, lookup (initialState F).analysisMap k = ∅ := lookup_initialMap F
  simp only [hlk0, Finset.empty_union, List.append_nil] at hl1 hst1
  have hB : lookup (loopBody F (initialState F)).analysisMap (F.block 0).name
      = getInstructionsFromBB (F.block 0) := by
    rw [hl1, if_pos rfl]
  have hpair := pushedItems_pair F (getInstructionsFromBB (F.block 0))
    (getInstructionsFromBB (F.block 0)) (loopBody F (initialState F)).analysisMap 0 1 hB
  have hstack1 : (loopBody F (initialState F)).traversalStack
      = if lookup (loopBody F (initialState F)).analysisMap (F.block 1).name
          = getInstructionsFromBB (F.block 0) then []
        else [(1, getInstructionsFromBB (F.block 0))] := by
    rw [hst1]
    rcases h0 with h0 | h0
    · rw [h0, hpair.1]; split_ifs <;> rfl
    · rw [h0, hpair.2]; split_ifs <;> rfl
  have hrun1 : runLoop F 1 (initialState F) = loopBody F (initialState F) := rfl
  have hrun2 : runLoop F 2 (initialState F) = loopBody F (loopBody F (initialState F)) := rfl
  have hfix : ∀ (s : State), s.traversalStack = [] → ∀ k, runLoop F k s = s := by
    intro s he k
    induction k with
    | zero => rfl
    | succ j ihj => rw [runLoop_succ, ihj, loopBody_nil F s he]
  by_cases hP : lookup (loopBody F (initialState F)).analysisMap (F.block 1).name
      = getInstructionsFromBB (F.block 0)
  · rw [if_pos hP] at hstack1
    have h2 : runLoop F 2 (initialState F) = loopBody F (initialState F) := by
      rw [hrun2, loopBody_nil F _ hstack1]
    have hout : out F (loopBody F (initialState F)).analysisMap 0
        = getInstructionsFromBB (F.block 0) := hB
    refine ⟨loopBody F (initialState F), ?_, hout, ?_, ?_⟩
    · rw [← h2]
      exact whileLoop_eq_some F 2 _ (by rw [h2]; exact hstack1)
    · intro hname
      unfold row getSimpleNodeLabel
      rw [if_pos hname]
      exact hB
    · intro n item hi
      have : runLoop F (n + 1) (initialState F) = loopBody F (initialState F) := by
        rw [runLoop_add, hrun1, hfix _ hstack1]
      rw [this, hstack1] at hi
      exact absurd hi (List.not_mem_nil _)
  · rw [if_neg hP] at hstack1
    have hl2 := lookup_loopBody F _ 1 (getInstructionsFromBB (F.block 0)) [] hstack1
    have hst2 := stack_loopBody F _ 1 (getInstructionsFromBB (F.block 0)) [] hstack1
    rw [h1] at hst2
    simp only [pushedItems, List.filter_nil, List.map_nil, List.reverse_nil,
      List.append_nil] at hst2
    have hnames : (F.block 0).name ≠ (F.block 1).name := by
      intro heq
      apply hP
      rw [← heq]
      exact hB
    have hout : out F (loopBody F (loopBody F (initialState F))).analysisMap 0
        = getInstructionsFromBB (F.block 0) := by
      unfold out
      rw [hl2, if_neg hnames]
      exact hB
    refine ⟨loopBody F (loopBody F (initialState F)), ?_, hout, ?_, ?_⟩
    · rw [← hrun2]
      exact whileLoop_eq_some F 2 _ (by rw [hrun2]; exact hst2)
    · intro hname
      unfold row getSimpleNodeLabel
      rw [if_pos hname]
      exact hout
    · intro n item hi
      rcases n with _ | n
      · rw [hrun1, hstack1] at hi
        rw [List.mem_singleton] at hi
        rw [hi]
        exact Nat.one_ne_zero
      · have : runLoop F (n + 1 + 1) (initialState F)
            = loopBody F (loopBody F (initialState F)) := by
          rw [show n + 1 + 1 = n + 2 by omega, runLoop_add, hrun2, hfix _ hst2]
        rw [this, hst2] at hi
        exact absurd hi (List.not_mem_nil _)

/-- The self-loop lemma on Scenario C: `B` stores to `z`. -/
theorem selfLoop_final_scenarioC :
    (((scenarioC.block 0).succs = [0, 1] ∨ (scenarioC.block 0).succs = [1, 0]) ∧
      (scenarioC.block 1).succs = []) ∧
    ∃ st, whileLoop scenarioC 2 (initialState scenarioC) = some st ∧
      out scenarioC st.analysisMap 0 = getInstructionsFromBB (scenarioC.block 0) ∧
      ((scenarioC.block 0).name ≠ "" →
        row scenarioC st.analysisMap 0 = getInstructionsFromBB (scenarioC.block 0)) ∧
      ∀ n, ∀ item ∈ (runLoop scenarioC (n + 1) (initialState scenarioC)).traversalStack,
        item.1 ≠ 0 :=
  ⟨by decide, selfLoop_final scenarioC (by decide) (by decide)⟩

theorem mem_foldl_store (insts : List Instr) (acc : VarSet) (v : InstPtr) :
    v ∈ insts.foldl
      (fun acc I =>
        match I with
        | Instr.store _ p => insert (dyn_cast_Instruction p) acc
        | Instr.other => acc) acc
    ↔ v ∈ acc ∨ ∃ a p, Instr.store a p ∈ insts ∧ dyn_cast_Instruction p = v := by
  induction insts generalizing acc with
  | nil => simp
  | cons I rest ih =>
    simp only [List.foldl_cons]
    rw [ih]
    cases I with
    | store a p =>
      simp only [Finset.mem_insert, List.mem_cons]
      constructor
      · rintro ((h | h) | ⟨a', p', h1, h2⟩)
        · exact Or.inr ⟨a, p, Or.inl rfl, h.symm⟩
        · exact Or.inl h
        · exact Or.inr ⟨a', p', Or.inr h1, h2⟩
      · rintro (h | ⟨a', p', h1 | h1, h2⟩)
        · exact Or.inl (Or.inr h)
        · cases h1
          exact Or.inl (Or.inl h2.symm)
        · exact Or.inr ⟨a', p', h1, h2⟩
    | other =>
      simp only [List.mem_cons]
      constructor
      · rintro (h | ⟨a', p', h1, h2⟩)
        · exact Or.inl h
        · exact Or.inr ⟨a', p', Or.inr h1, h2⟩
      · rintro (h | ⟨a', p', h1 | h1, h2⟩)
        · exact Or.inl h
        · cases h1
        · exact Or.inr ⟨a', p', h1, h2⟩

theorem mem_getInstructionsFromBB (BB : BasicBlock) (v : InstPtr) :
    v ∈ getInstructionsFromBB BB
      ↔ ∃ a p, Instr.store a p ∈ BB.insts ∧ dyn_cast_Instruction p = v := by
  unfold getInstructionsFromBB
  rw [mem_foldl_store]
  simp

/-- The transfer function: for every block `BB` and every incoming set `S`,
`findTaintedVars BB S` is `S ∪ getInstructionsFromBB BB`; the members of `getInstructionsFromBB BB` are exactly
the casts of operand 1 of the stores of `BB`; so a variable (an instruction `addr`) is in
the result iff it is in `S` or some store of `BB` has it as operand 1; and two blocks
with the same instructions, in whatever order and however often, give the same result. -/
theorem findTaintedVars_exact (BB : BasicBlock) (S : VarSet) :
    findTaintedVars BB S = S ∪ getInstructionsFromBB BB ∧
    (∀ v, v ∈ getInstructionsFromBB BB
      ↔ ∃ a p, Instr.store a p ∈ BB.insts ∧ dyn_cast_Instruction p = v) ∧
    (∀ addr, some addr ∈ findTaintedVars BB S
      ↔ some addr ∈ S ∨ ∃ a, Instr.store a (Value.instruction addr) ∈ BB.insts) ∧
    (∀ BB' : BasicBlock, (∀ I, I ∈ BB'.insts ↔ I ∈ BB.insts) →
      findTaintedVars BB' S = findTaintedVars BB S) := by
  refine ⟨findTaintedVars_eq BB S, mem_getInstructionsFromBB BB, ?_, ?_⟩
  · intro addr
    rw [findTaintedVars_eq, Finset.mem_union, mem_getInstructionsFromBB]
    constructor
    · rintro (h | ⟨a, p, h1, h2⟩)
      · exact Or.inl h
      · cases p with
        | instruction q =>
          simp only [dyn_cast_Instruction, Option.some.injEq] at h2
          subst h2
          exact Or.inr ⟨a, h1⟩
        | nonInstruction q => simp [dyn_cast_Instruction] at h2
    · rintro (h | ⟨a, h1⟩)
      · exact Or.inl h
      · exact Or.inr ⟨a, _, h1, rfl⟩
  · intro BB' hsame
    rw [findTaintedVars_eq, findTaintedVars_eq]
    congr 1
    ext v
    rw [mem_getInstructionsFromBB, mem_getInstructionsFromBB]
    simp only [hsame]

theorem gen_eq_empty_of_no_store (BB : BasicBlock)
    (h : ∀ a p, Instr.store a p ∉ BB.insts) : getInstructionsFromBB BB = ∅ := by
  apply Finset.eq_empty_of_forall_not_mem
  intro v hv
  obtain ⟨a, p, h1, _⟩ := (mem_getInstructionsFromBB BB v).mp hv
  exact h a p h1

theorem gen_nonempty_of_store (BB : BasicBlock)
    (h : ∃ a p, Instr.store a p ∈ BB.insts) : (getInstructionsFromBB BB).Nonempty := by
  obtain ⟨a, p, h1⟩ := h
  exact ⟨dyn_cast_Instruction p, (mem_getInstructionsFromBB BB _).mpr ⟨a, p, h1, rfl⟩⟩

/-- Claim C19: on every function whose entry block contains no store, whatever the other
blocks contain and however the blocks are named, the loop of `main` performs exactly one
iteration: the stack is not empty on entry, the first iteration pushes nothing and
leaves it empty, and every set of the map is empty on exit. -/
theorem entry_without_store_one_iteration (F : Func)
    (hE : ∀ a p, Instr.store a p ∉ (F.block F.entryBB).insts) :
    whileLoop F 0 (initialState F) = none ∧
    whileLoop F 1 (initialState F) = some (loopBody F (initialState F)) ∧
    (loopBody F (initialState F)).traversalStack = [] ∧
    (∀ k, lookup (loopBody F (initialState F)).analysisMap k = ∅) ∧
    ∀ b, row F (loopBody F (initialState F)).analysisMap b = ∅ ∧
      out F (loopBody F (initialState F)).analysisMap b = ∅ := by
  have hgen := gen_eq_empty_of_no_store _ hE
  have hs0 : (initialState F).traversalStack = [(F.entryBB, ∅)] := rfl
  have hlk0 : ∀ k, lookup (initialState F).analysisMap k = ∅ := lookup_initialMap F
  have hlk : ∀ k, lookup (loopBody F (initialState F)).analysisMap k = ∅ := by
    intro k
    rw [lookup_loopBody F _ _ _ _ hs0, hlk0, hgen]
    simp
  have hst : (loopBody F (initialState F)).traversalStack = [] := by
    rw [stack_loopBody F _ _ _ _ hs0, hlk0, hgen]
    simp only [Finset.union_empty, List.append_nil, List.reverse_eq_nil_iff]
    apply List.eq_nil_iff_forall_not_mem.mpr
    rintro ⟨s, T⟩ hmem
    rw [mem_pushedItems] at hmem
    exact hmem.2.1 (hlk _)
  refine ⟨rfl, ?_, hst, hlk, fun b => ⟨hlk _, hlk _⟩⟩
  have h1 : runLoop F 1 (initialState F) = loopBody F (initialState F) := rfl
  rw [← h1]
  exact whileLoop_eq_some F 1 _ (by rw [h1]; exact hst)

/-- Claim C19 on `silentEntry`, whose entry block has no store and whose block `B1` stores. -/
theorem entry_without_store_one_iteration_silentEntry :
    (∀ a p, Instr.store a p ∉ (silentEntry.block silentEntry.entryBB).insts) ∧
    (whileLoop silentEntry 0 (initialState silentEntry) = none ∧
    whileLoop silentEntry 1 (initialState silentEntry)
      = some (loopBody silentEntry (initialState silentEntry)) ∧
    (loopBody silentEntry (initialState silentEntry)).traversalStack = [] ∧
    (∀ k, lookup (loopBody silentEntry (initialState silentEntry)).analysisMap k = ∅) ∧
    ∀ b, row silentEntry (loopBody silentEntry (initialState silentEntry)).analysisMap b = ∅ ∧
      out silentEntry (loopBody silentEntry (initialState silentEntry)).analysisMap b = ∅) := by
  have h : ∀ a p, Instr.store a p ∉ (silentEntry.block silentEntry.entryBB).insts := by
    intro a p hmem
    simp [silentEntry, Func.block, Func.entryBB] at hmem
  exact ⟨h, entry_without_store_one_iteration silentEntry h⟩

/-- With an empty stack, the set of a block reachable from the entry block is contained
in the set of every block that a path leads to from it. -/
theorem final_path (F : Func) (hne : 0 < F.blocks.length) (hV : SuccsValid F) (st : State)
    (hinv : Inv F st) (hend : st.traversalStack = []) (c b : Nat)
    (hc : Reach F F.entryBB c) (hcb : Reach F c b) :
    out F st.analysisMap c ⊆ out F st.analysisMap b := by
  have hboth : out F st.analysisMap c ⊆ out F st.analysisMap b ∧ Reach F F.entryBB b := by
    induction hcb with
    | refl => exact ⟨subset_rfl, hc⟩
    | tail _ hedge ih =>
      exact ⟨ih.1.trans (final_edge F st hinv hend _ (reach_valid F hne hV _ ih.2) _ hedge),
        ih.2.tail hedge⟩
  exact hboth.1

/-- Claim C18: on a function whose blocks all have names, no two the same, whose
successors are blocks of the function and whose entry block contains a store, the loop of
`main` finishes; on exit the row of every block `b` reachable from the entry block holds
exactly the casts of the store targets of the blocks `c` that lie on a path from the
entry block to `b`, and the row of every block that is not reachable is empty. -/
theorem exact_least_fixpoint (F : Func) (hV : SuccsValid F) (hN : NamesDistinct F)
    (hA : AllNamed F) (hE : ∃ a p, Instr.store a p ∈ (F.block F.entryBB).insts) :
    ∃ fuel st, whileLoop F fuel (initialState F) = some st ∧
      (∀ b, Reach F F.entryBB b → ∀ v, v ∈ row F st.analysisMap b ↔
        ∃ c, Reach F F.entryBB c ∧ Reach F c b ∧ v ∈ getInstructionsFromBB (F.block c)) ∧
      (∀ b, b < F.blocks.length → ¬ Reach F F.entryBB b → row F st.analysisMap b = ∅) := by
  have hne : 0 < F.blocks.length := by
    by_contra h0
    obtain ⟨a, p, hmem⟩ := hE
    rw [block_of_ge F F.entryBB (not_lt.mp h0)] at hmem
    exact absurd hmem (List.not_mem_nil _)
  have hEn := gen_nonempty_of_store _ hE
  obtain ⟨n, hn⟩ := runLoop_terminates F hne hV hN
  have hinv := inv_runLoop F hne hV hN n
  have hsound := invSound_runLoop F (labelsWF_of_named F hN hA) n
  refine ⟨n, _, whileLoop_eq_some F n _ hn, ?_, ?_⟩
  · intro b hb v
    constructor
    · exact hsound.2 b (reach_valid F hne hV b hb) v
    · rintro ⟨c, hc, hcb, hv⟩
      rw [row_eq_out F hA]
      have hown := (final_own F hne hV _ hinv hn hEn c hc).2
      have hpath := final_path F hne hV _ hinv hn c b hc hcb
      exact hpath (hown hv)
  · intro b hb hu
    apply Finset.eq_empty_of_forall_not_mem
    intro v hv
    obtain ⟨c, h1, h2, _⟩ := hsound.2 b hb v hv
    exact hu (h1.trans h2)

/-- Claim C18 on Scenario A. -/
theorem exact_least_fixpoint_scenarioA :
    (SuccsValid scenarioA ∧ NamesDistinct scenarioA ∧ AllNamed scenarioA ∧
      ∃ a p, Instr.store a p ∈ (scenarioA.block scenarioA.entryBB).insts) ∧
    ∃ fuel st, whileLoop scenarioA fuel (initialState scenarioA) = some st ∧
      (∀ b, Reach scenarioA scenarioA.entryBB b → ∀ v, v ∈ row scenarioA st.analysisMap b ↔
        ∃ c, Reach scenarioA scenarioA.entryBB c ∧ Reach scenarioA c b ∧
          v ∈ getInstructionsFromBB (scenarioA.block c)) ∧
      (∀ b, b < scenarioA.blocks.length → ¬ Reach scenarioA scenarioA.entryBB b →
        row scenarioA st.analysisMap b = ∅) :=
  ⟨⟨by decide, by decide, by decide,
      ⟨Value.nonInstruction 0, Value.instruction 1, by decide⟩⟩,
    exact_least_fixpoint scenarioA (by decide) (by decide) (by decide)
      ⟨Value.nonInstruction 0, Value.instruction 1, by decide⟩⟩

theorem room_initial (F : Func) :
    room F (initialState F).analysisMap = F.blocks.length * (allVars F).card := by
  unfold room out
  have h : ∀ k, lookup (initialState F).analysisMap k = ∅ := lookup_initialMap F
  simp [h]

theorem enlargingIterations_le_room (F : Func) (hV : SuccsValid F) (hN : NamesDistinct F) :
    ∀ (n : Nat) (st : State), Inv F st →
      enlargingIterations F n st ≤ room F st.analysisMap := by
  intro n
  induction n with
  | zero => intro st _; exact Nat.zero_le _
  | succ k ih =>
    intro st hinv
    have hnext := ih (loopBody F st) (inv_loopBody F hV hN st hinv)
    unfold enlargingIterations
    cases hs : st.traversalStack with
    | nil =>
      have he : enlarges F st = false := by unfold enlarges; rw [hs]
      rw [he, loopBody_nil F st hs] at *
      simpa using hnext
    | cons top rest =>
      obtain ⟨b0, S0⟩ := top
      by_cases hsub : S0 ∪ getInstructionsFromBB (F.block b0) ⊆ out F st.analysisMap b0
      · have he : enlarges F st = false := by
          unfold enlarges
          rw [hs]
          simp only [findTaintedVars_eq, decide_eq_false_iff_not, not_not]
          exact hsub
        have hroom := room_congr F st.analysisMap (loopBody F st).analysisMap
          (lookup_loopBody_of_subset F st b0 S0 rest hs hsub)
        rw [he]
        simp only [Bool.false_eq_true, if_false, Nat.zero_add]
        omega
      · have hlt := room_loopBody_lt F st hinv b0 S0 rest hs hsub
        split_ifs <;> omega

/-- Claim C15 as stated fails on `crossEdge`, three named blocks and one variable: the
loop is still running after three iterations and ends with the fourth, because the
stack holds block `B1` twice. -/
theorem crossEdge_four_iterations :
    crossEdge.blocks.length * (allVars crossEdge).card = 3 ∧
    whileLoop crossEdge 3 (initialState crossEdge) = none ∧
    whileLoop crossEdge 4 (initialState crossEdge)
      = some (runLoop crossEdge 4 (initialState crossEdge)) := by
  refine ⟨?_, ?_, ?_⟩ <;> decide

/-- Claim C15, amended: on a function with at least one block whose blocks have distinct
names and whose successors are blocks of the function, the loop of `main` halts, and
among any number of its iterations at most (number of blocks) × (number of distinct casts
of store targets) enlarge the set of the block they process. -/
theorem enlarging_iterations_bounded (F : Func) (hne : 0 < F.blocks.length)
    (hV : SuccsValid F) (hN : NamesDistinct F) :
    (∃ fuel st, whileLoop F fuel (initialState F) = some st) ∧
    ∀ n, enlargingIterations F n (initialState F) ≤ F.blocks.length * (allVars F).card := by
  constructor
  · obtain ⟨n, hn⟩ := runLoop_terminates F hne hV hN
    exact ⟨n, _, whileLoop_eq_some F n _ hn⟩
  · intro n
    rw [← room_initial F]
    exact enlargingIterations_le_room F hV hN n _ (inv_initial F hne)

/-- Claim C15, amended, on `crossEdge`. -/
theorem enlarging_iterations_bounded_crossEdge :
    (0 < crossEdge.blocks.length ∧ SuccsValid crossEdge ∧ NamesDistinct crossEdge) ∧
    ((∃ fuel st, whileLoop crossEdge fuel (initialState crossEdge) = some st) ∧
    ∀ n, enlargingIterations crossEdge n (initialState crossEdge)
      ≤ crossEdge.blocks.length * (allVars crossEdge).card) :=
  ⟨by decide, enlarging_iterations_bounded crossEdge (by decide) (by decide) (by decide)⟩

/-- Claim C12 fails on `unnamedChain`, three unnamed blocks: `main` creates the keys `%0`,
`%1`, `%2`; the first iteration of the loop adds the empty key, under which it stores
`{x}`, and leaves the row `%0` of the block it processed empty; the blocks `%0` and
`%1` are read and written under the same key, their empty name, which is not the label
of either. -/
theorem unnamedChain_loop_adds_key :
    keys (initialState unnamedChain).analysisMap = ["%0", "%1", "%2"] ∧
    whileLoop unnamedChain 1 (initialState unnamedChain)
      = some (loopBody unnamedChain (initialState unnamedChain)) ∧
    (loopBody unnamedChain (initialState unnamedChain)).analysisMap
      = [("", {some 1}), ("%0", ∅), ("%1", ∅), ("%2", ∅)] ∧
    (unnamedChain.block 0).name = (unnamedChain.block 1).name ∧
    getSimpleNodeLabel (unnamedChain.block 0) ≠ getSimpleNodeLabel (unnamedChain.block 1) ∧
    getSimpleNodeLabel (unnamedChain.block 0) ≠ (unnamedChain.block 0).name := by
  refine ⟨?_, ?_, ?_, ?_, ?_, ?_⟩ <;> decide

/-- Claim C13 fails on `moduleA`, whose `main` is Scenario A: the rows `main` writes are
those of the map before the loop, every label with an empty set; the map on exit holds
`{x}`, `{x, y}`, `{x, y}`, and nothing is written after the loop. -/
theorem main_prints_map_before_loop :
    ∃ printed m, main (some moduleA) 3 = Outcome.exitSuccess printed m ∧
      printed = [("B1", ∅), ("B2", ∅), ("entry", ∅)] ∧
      m = [("B1", {some 1, some 2}), ("B2", {some 1, some 2}), ("entry", {some 1})] ∧
      printed ≠ printAnalysisMap m := by
  have hg : moduleA.getFunction "main" = some scenarioA := by decide
  have hw := whileLoop_eq_some scenarioA 3 (initialState scenarioA) (by decide)
  refine ⟨printAnalysisMap (initialMap scenarioA),
    (runLoop scenarioA 3 (initialState scenarioA)).analysisMap, ?_, ?_, ?_, ?_⟩
  · unfold main
    simp only [hg, hw]
  · decide
  · decide
  · decide

/-- Whatever the function `main` of the module and whatever the run, the rows written are
those of the map before the loop: every set written is empty. -/
theorem main_printed_rows (M : Module) (F : Func) (fuel : Nat)
    (printed : List (String × VarSet)) (m : AnalysisMap)
    (hF : M.getFunction "main" = some F)
    (h : main (some M) fuel = Outcome.exitSuccess printed m) :
    printed = printAnalysisMap (initialMap F) ∧ ∀ r ∈ printed, r.2 = ∅ := by
  unfold main at h
  simp only [hF] at h
  have hp : printed = printAnalysisMap (initialMap F) := by
    cases hw : whileLoop F fuel (initialState F) with
    | none => rw [hw] at h; cases h
    | some st => rw [hw] at h; cases h; rfl
  refine ⟨hp, ?_⟩
  intro r hr
  rw [hp] at hr
  unfold printAnalysisMap at hr
  rw [List.mem_map] at hr
  obtain ⟨q, hq, rfl⟩ := hr
  have hall : ∀ (bs : List BasicBlock) (m0 : AnalysisMap), (∀ q ∈ m0, q.2 = ∅) →
      ∀ q ∈ bs.foldl (fun m BB => assign m (getSimpleNodeLabel BB) ∅) m0, q.2 = ∅ := by
    intro bs
    induction bs with
    | nil => intro m0 h0; exact h0
    | cons B more ih =>
      intro m0 h0
      simp only [List.foldl_cons]
      apply ih
      have hassign : ∀ (m1 : AnalysisMap) (k : String), (∀ q ∈ m1, q.2 = ∅) →
          ∀ q ∈ assign m1 k ∅, q.2 = ∅ := by
        intro m1 k
        induction m1 with
        | nil =>
          intro _ q hq
          simp only [assign, List.mem_singleton] at hq
          rw [hq]
        | cons p tl ihm =>
          intro h1 q hq
          obtain ⟨k0, v0⟩ := p
          simp only [assign] at hq
          split_ifs at hq
          · rcases List.mem_cons.mp hq with h2 | h2
            · rw [h2]
            · exact h1 q (List.mem_cons_of_mem _ h2)
          · rcases List.mem_cons.mp hq with h2 | h2
            · rw [h2]
            · exact h1 q h2
          · rcases List.mem_cons.mp hq with h2 | h2
            · rw [h2]; exact h1 _ (List.mem_cons_self _ _)
            · exact ihm (fun q hq => h1 q (List.mem_cons_of_mem _ hq)) q h2
      exact hassign m0 _ h0
  exact hall F.blocks [] (fun q hq => absurd hq (List.not_mem_nil _)) q hq

/-- Claim C14 fails on `moduleWithoutMain`, a module without a function `main`: whatever
the bound on the loop, `main` does not end with the error message and `EXIT_FAILURE`;
it goes on to line 36 and dereferences the null pointer `getFunction` returned. -/
theorem main_without_function_main :
    moduleWithoutMain.getFunction "main" = none ∧
    ∀ fuel, main (some moduleWithoutMain) fuel = Outcome.nullDereference ∧
      ∀ message, main (some moduleWithoutMain) fuel ≠ Outcome.exitFailure message := by
  refine ⟨by decide, ?_⟩
  intro fuel
  have h : main (some moduleWithoutMain) fuel = Outcome.nullDereference := rfl
  refine ⟨h, ?_⟩
  intro message hc
  rw [h] at hc
  cases hc

/-- Claim C20 fails on `globalStore`, one block with a store through a global variable:
`getInstructionsFromBB` and `findTaintedVars` return a set that holds the null pointer,
and on exit from the loop the row of the block holds it. -/
theorem globalStore_null_member :
    none ∈ getInstructionsFromBB (globalStore.block 0) ∧
    none ∈ findTaintedVars (globalStore.block 0) ∅ ∧
    whileLoop globalStore 1 (initialState globalStore)
      = some (loopBody globalStore (initialState globalStore)) ∧
    none ∈ row globalStore (loopBody globalStore (initialState globalStore)).analysisMap 0 := by
  refine ⟨?_, ?_, ?_, ?_⟩ <;> decide

/-- Claim C16 as stated fails in both halves. On Scenario C, in the first iteration, the
merged set `{z}` differs from the empty set recorded for `B` before, `B` is a successor
of itself, and the iteration does not push `B`: it pushes `exit` only. On `crossThen`, in
the fifth iteration, the pair `(A, {x})` is on top of the stack, the merged set `{x}` is
the set recorded for `A` before, and the iteration pushes `(C, {x})`. -/
theorem step_rule_fails_both_ways :
    (union_sets (out scenarioC (initialState scenarioC).analysisMap 0)
        (findTaintedVars (scenarioC.block 0) ∅)
      ≠ out scenarioC (initialState scenarioC).analysisMap 0 ∧
    (initialState scenarioC).traversalStack = [(0, ∅)] ∧
    0 ∈ (scenarioC.block 0).succs ∧
    (loopBody scenarioC (initialState scenarioC)).traversalStack
      = [(1, findTaintedVars (scenarioC.block 0) ∅)]) ∧
    ((runLoop crossThen 4 (initialState crossThen)).traversalStack = [(1, {some 1})] ∧
    union_sets (out crossThen (runLoop crossThen 4 (initialState crossThen)).analysisMap 1)
        (findTaintedVars (crossThen.block 1) {some 1})
      = out crossThen (runLoop crossThen 4 (initialState crossThen)).analysisMap 1 ∧
    (loopBody crossThen (runLoop crossThen 4 (initialState crossThen))).traversalStack
      = [(3, findTaintedVars (crossThen.block 1) {some 1})]) := by
  refine ⟨⟨?_, ?_, ?_, ?_⟩, ?_, ?_, ?_⟩ <;> decide

/-- Claim C16, amended: in every state with a pair `(block, incoming)` on top of the
stack, with `localDefined = findTaintedVars block incoming` and
`merged = analysisMap[block] ∪ localDefined`, one iteration stores `merged` for the block,
whether or not it differs from the set stored before, and replaces the top of the stack
by a list `pushed` of pairs `(s, localDefined)`, taken from the successors of the block in
their order, the last on top. A successor whose stored set, as line 82 reads it, is
`merged` is not pushed, so nothing is pushed when that holds of every successor, and the
block itself is never pushed; a successor whose stored set does not contain
`localDefined` is pushed. -/
theorem loopBody_step_rule (F : Func) (st : State) (block : Nat) (incoming : VarSet)
    (rest : List (Nat × VarSet)) (hs : st.traversalStack = (block, incoming) :: rest) :
    out F (loopBody F st).analysisMap block
      = union_sets (out F st.analysisMap block) (findTaintedVars (F.block block) incoming) ∧
    ∃ pushed, (loopBody F st).traversalStack = pushed ++ rest ∧
      pushed.reverse.Sublist
        ((F.block block).succs.map (fun s => (s, findTaintedVars (F.block block) incoming))) ∧
      (∀ item ∈ pushed, out F (loopBody F st).analysisMap item.1
        ≠ union_sets (out F st.analysisMap block)
            (findTaintedVars (F.block block) incoming)) ∧
      ((∀ s ∈ (F.block block).succs, out F (loopBody F st).analysisMap s
          = union_sets (out F st.analysisMap block)
              (findTaintedVars (F.block block) incoming)) → pushed = []) ∧
      (∀ T, (block, T) ∉ pushed) ∧
      ∀ s ∈ (F.block block).succs,
        ¬ findTaintedVars (F.block block) incoming ⊆ out F (loopBody F st).analysisMap s →
        (s, findTaintedVars (F.block block) incoming) ∈ pushed := by
  have hout := out_loopBody F st block incoming rest hs
  have hstack := stack_loopBody F st block incoming rest hs
  have hmerged : out F (loopBody F st).analysisMap block
      = union_sets (out F st.analysisMap block)
          (findTaintedVars (F.block block) incoming) := by
    rw [hout, if_pos rfl, union_sets, findTaintedVars_eq]
  have hne : ∀ item ∈ (pushedItems F (incoming ∪ getInstructionsFromBB (F.block block))
      (lookup st.analysisMap (F.block block).name ∪
        (incoming ∪ getInstructionsFromBB (F.block block)))
      (loopBody F st).analysisMap (F.block block).succs).reverse,
      out F (loopBody F st).analysisMap item.1
        ≠ union_sets (out F st.analysisMap block)
            (findTaintedVars (F.block block) incoming) := by
    rintro ⟨s, T⟩ hmem
    rw [List.mem_reverse, mem_pushedItems] at hmem
    rw [union_sets, findTaintedVars_eq]
    exact hmem.2.1
  refine ⟨hmerged, _, hstack, ?_, hne, ?_, ?_, ?_⟩
  · rw [List.reverse_reverse, findTaintedVars_eq]
    unfold pushedItems
    exact List.Sublist.map _ (List.filter_sublist _)
  · intro hall
    apply List.eq_nil_iff_forall_not_mem.mpr
    rintro ⟨s, T⟩ hmem
    have h1 := hne (s, T) hmem
    rw [List.mem_reverse, mem_pushedItems] at hmem
    exact h1 (hall s hmem.1)
  · intro T hmem
    exact hne (block, T) hmem hmerged
  · intro s hsucc hnew
    rw [findTaintedVars_eq]
    rw [List.mem_reverse, mem_pushedItems]
    refine ⟨hsucc, ?_, rfl⟩
    intro heq
    apply hnew
    unfold out
    rw [heq, findTaintedVars_eq]
    exact Finset.subset_union_right

/-- Claim C16, amended, on the first iteration of Scenario C. -/
theorem loopBody_step_rule_scenarioC :
    (initialState scenarioC).traversalStack = (0, ∅) :: [] ∧
    (out scenarioC (loopBody scenarioC (initialState scenarioC)).analysisMap 0
      = union_sets (out scenarioC (initialState scenarioC).analysisMap 0)
          (findTaintedVars (scenarioC.block 0) ∅) ∧
    ∃ pushed, (loopBody scenarioC (initialState scenarioC)).traversalStack = pushed ++ [] ∧
      pushed.reverse.Sublist
        ((scenarioC.block 0).succs.map (fun s => (s, findTaintedVars (scenarioC.block 0) ∅))) ∧
      (∀ item ∈ pushed,
        out scenarioC (loopBody scenarioC (initialState scenarioC)).analysisMap item.1
        ≠ union_sets (out scenarioC (initialState scenarioC).analysisMap 0)
            (findTaintedVars (scenarioC.block 0) ∅)) ∧
      ((∀ s ∈ (scenarioC.block 0).succs,
          out scenarioC (loopBody scenarioC (initialState scenarioC)).analysisMap s
          = union_sets (out scenarioC (initialState scenarioC).analysisMap 0)
              (findTaintedVars (scenarioC.block 0) ∅)) → pushed = []) ∧
      (∀ T, (0, T) ∉ pushed) ∧
      ∀ s ∈ (scenarioC.block 0).succs,
        ¬ findTaintedVars (scenarioC.block 0) ∅
            ⊆ out scenarioC (loopBody scenarioC (initialState scenarioC)).analysisMap s →
        (s, findTaintedVars (scenarioC.block 0) ∅) ∈ pushed) :=
  ⟨rfl, loopBody_step_rule scenarioC (initialState scenarioC) 0 ∅ [] rfl⟩

/-- Claim C17 fails on `lateJoin`, a diamond with named blocks, in the fourth iteration:
the pair `(B1, {e})` is on top of the stack and the set stored for the successor `B3` is
`{e, b}`; `updatedInitializedVars = {e}` is contained in it, so its union with the stored
set is the stored set, and still the iteration pushes `(B3, {e})`, because line 83
compares the stored set of `B3` with the union computed for `B1`. -/
theorem lateJoin_pushes_without_new_facts :
    (runLoop lateJoin 3 (initialState lateJoin)).traversalStack = [(1, {some 5})] ∧
    3 ∈ (lateJoin.block 1).succs ∧
    findTaintedVars (lateJoin.block 1) {some 5} = {some 5} ∧
    out lateJoin (runLoop lateJoin 3 (initialState lateJoin)).analysisMap 3
      = {some 5, some 2} ∧
    union_sets (out lateJoin (runLoop lateJoin 3 (initialState lateJoin)).analysisMap 3)
        (findTaintedVars (lateJoin.block 1) {some 5})
      = out lateJoin (runLoop lateJoin 3 (initialState lateJoin)).analysisMap 3 ∧
    (loopBody lateJoin (runLoop lateJoin 3 (initialState lateJoin))).traversalStack
      = [(3, {some 5})] := by
  refine ⟨?_, ?_, ?_, ?_, ?_, ?_⟩ <;> decide

/-- Claim C2 fails on `whileUnnamed`: after four iterations the set the loop keeps for the
unnamed body block `%2` (lines 62, 63, 82, under its name) holds `y`, and no block on a
path from the entry block to the body stores to `y`: only the exit block `%3` does, and
it has no successor. -/
theorem whileUnnamed_body_set_unsound :
    some 2 ∈ out whileUnnamed (runLoop whileUnnamed 4 (initialState whileUnnamed)).analysisMap 2 ∧
    ¬ ∃ c, Reach whileUnnamed whileUnnamed.entryBB c ∧ Reach whileUnnamed c 2 ∧
        some 2 ∈ getInstructionsFromBB (whileUnnamed.block c) := by
  refine ⟨by decide, ?_⟩
  rintro ⟨c, _, hreach, hgen⟩
  have hc : c = 3 := by
    rcases c with _ | _ | _ | _ | c
    · exact absurd hgen (by decide)
    · exact absurd hgen (by decide)
    · exact absurd hgen (by decide)
    · rfl
    · exfalso
      have hd : whileUnnamed.block (c + 4) = default := by
        simp [Func.block, whileUnnamed]
      rw [hd] at hgen
      simp [getInstructionsFromBB, default] at hgen
  subst hc
  rcases Relation.ReflTransGen.cases_head hreach with h | ⟨d, hedge, _⟩
  · exact absurd h (by decide)
  · exact absurd hedge (by simp [Edge, Func.block, whileUnnamed])

/-- Claim C11 fails on `twoGlobals`, a block whose two stores go through two global
variables: `getInstructionsFromBB` and `findTaintedVars` with an empty incoming set
return the set whose one member is the null pointer, which is not in the incoming set
and is the pointer operand of no store; no store of the block has an instruction as its
pointer operand. -/
theorem twoGlobals_result_is_null :
    getInstructionsFromBB twoGlobals = {none} ∧
    findTaintedVars twoGlobals ∅ = {none} ∧
    Instr.store (Value.nonInstruction 0) (Value.nonInstruction 7) ∈ twoGlobals.insts ∧
    Instr.store (Value.nonInstruction 0) (Value.nonInstruction 8) ∈ twoGlobals.insts ∧
    ∀ a p, Instr.store a p ∈ twoGlobals.insts → ∀ addr, p ≠ Value.instruction addr := by
  refine ⟨by decide, by decide, by decide, by decide, ?_⟩
  intro a p hmem addr hp
  subst hp
  simp [twoGlobals, storeToGlobal] at hmem

end TaintVars
